import Mathlib

/-!
Verification of the citation-graph relationship analyzer
(`app/services/relationship_analyzer.py`).

The analyzer builds a directed citation graph (networkx `DiGraph`) from law
entities, case entities and cross-reference records, and serves three read
operations: related-case search with relevance scores, most-cited-law
ranking, and an ego-network view for visualization.

The embedding below models:
- the entity records through the fields the analyzer actually reads
  (the entity/reference sources are external collaborators of the core);
- the networkx `DiGraph` as an insertion-ordered association list of nodes
  (node id to attribute dict) plus an insertion-ordered edge list keyed by
  the ordered pair (source, target); `add_edge` inserts missing endpoint
  nodes with an empty attribute dict, exactly as networkx does;
- Python exceptions (`KeyError` / `AttributeError` on missing attributes)
  as `Option`: `none` means the call raised;
- Python `set` iteration (whose order is unspecified, hash-dependent) by
  an explicit enumeration parameter constrained to enumerate the set;
- `nx.pagerank` (power iteration, alpha = 0.85, max_iter = 100,
  tol = 1e-06, uniform start/personalization, dangling mass redistributed
  uniformly) in exact rational arithmetic, returning `none` when the
  iteration fails to converge (the `PowerIterationFailedConvergence`
  exception, caught by the analyzer's fallback);
- Python's stable `list.sort(key=..., reverse=True)` by a stable
  insertion sort with the reversed comparison on the key (any two stable
  sorts of the same keyed list coincide).
-/

namespace CitationGraph

/-- Law record as consumed by the analyzer: it reads `law.law_id` and
`law.law_name` when adding law nodes (`build_citation_graph`). -/
structure LawDetail where
  law_id : String
  law_name : String
deriving DecidableEq

/-- Case record as consumed by the analyzer: it reads `case.case_id`,
`case.case_name`, `case.court_name` and `case.decision_date` (rendered via
`isoformat()`, modelled here as the ISO string itself). -/
structure CaseDetail where
  case_id : String
  case_name : String
  court_name : String
  decision_date : String
deriving DecidableEq

/-- Citation record (`app/models/case.py`, `CaseReference`): source case id,
optional referenced law id, optional referenced case id, optional context.
`none` models Python `None`; the analyzer tests the fields for truthiness,
so the empty string is treated like `None`. -/
structure CaseReference where
  case_id : String
  referenced_law_id : Option String
  referenced_case_id : Option String
  context : Option String
deriving DecidableEq

/-- Payload stored under the `data` node attribute: the full law or case
record. -/
inductive EntityData where
  | ofLaw (l : LawDetail)
  | ofCase (c : CaseDetail)
deriving DecidableEq

/-- Node attribute dict as written by `build_citation_graph`: it always
stores the three keys `type`, `name`, `data` together. A node inserted
implicitly by `add_edge` has an empty attribute dict, modelled as `none`
at the use sites. -/
structure NodeAttrs where
  type : String
  name : String
  data : EntityData
deriving DecidableEq

/-- Edge attribute dict as written by `build_citation_graph`: keys `type`
and `context`. -/
structure EdgeAttrs where
  type : String
  context : Option String
deriving DecidableEq

/-- Model of the networkx `DiGraph` as used by the analyzer.
`nodes` is the insertion-ordered node dict: node id paired with its
attribute dict (`none` = empty dict, for nodes created by `add_edge`).
`edges` is the insertion-ordered edge set, keyed by (source, target);
a re-added edge only overwrites its attributes in place. -/
structure DiGraph where
  nodes : List (String × Option NodeAttrs)
  edges : List (String × String × EdgeAttrs)
deriving DecidableEq

namespace DiGraph

/-- The empty graph (`nx.DiGraph()`). -/
def empty : DiGraph := ⟨[], []⟩

/-- Node ids in insertion order (`list(graph.nodes())`). -/
def nodeIds (g : DiGraph) : List String := g.nodes.map Prod.fst

/-- Membership test `node in graph`. -/
def hasNode (g : DiGraph) (n : String) : Bool := g.nodeIds.contains n

/-- Attribute-dict lookup `graph.nodes[n]`: `none` when the node is absent,
`some a` with the attribute dict `a` otherwise. -/
def attrsOf (g : DiGraph) (n : String) : Option (Option NodeAttrs) :=
  (g.nodes.find? (fun p => p.1 == n)).map Prod.snd

/-- Helper for `add_node`: update the attribute dict in place when the node
exists, append the node otherwise. In `build_citation_graph` every explicit
`add_node` supplies all three attribute keys, so the dict update amounts to
replacement. -/
def addNodeList : List (String × Option NodeAttrs) → String → Option NodeAttrs →
    List (String × Option NodeAttrs)
  | [], n, a => [(n, a)]
  | (m, b) :: rest, n, a =>
    if m == n then (m, a) :: rest else (m, b) :: addNodeList rest n a

/-- `graph.add_node(n, type=..., name=..., data=...)`. -/
def addEntityNode (g : DiGraph) (n : String) (a : NodeAttrs) : DiGraph :=
  { g with nodes := addNodeList g.nodes n (some a) }

/-- The implicit node insertion performed by `add_edge` for a missing
endpoint: the node is appended with an empty attribute dict; an existing
node is left untouched. -/
def ensureNode (g : DiGraph) (n : String) : DiGraph :=
  if g.hasNode n then g else { g with nodes := g.nodes ++ [(n, none)] }

/-- Helper for `add_edge`: overwrite the attributes of an existing
(source, target) edge in place, append the edge otherwise. -/
def addEdgeList : List (String × String × EdgeAttrs) → String → String → EdgeAttrs →
    List (String × String × EdgeAttrs)
  | [], u, v, a => [(u, v, a)]
  | (x, y, b) :: rest, u, v, a =>
    if x == u && y == v then (x, y, a) :: rest else (x, y, b) :: addEdgeList rest u v a

/-- `graph.add_edge(u, v, type=..., context=...)`: inserts missing endpoints
with empty attribute dicts, then stores the edge. -/
def addEdge (g : DiGraph) (u v : String) (a : EdgeAttrs) : DiGraph :=
  let g1 := (g.ensureNode u).ensureNode v
  { g1 with edges := addEdgeList g1.edges u v a }

/-- `list(graph.predecessors(n))`: sources of the edges into `n`, in edge
insertion order (which is how networkx orders the predecessor dict). -/
def predecessors (g : DiGraph) (n : String) : List String :=
  g.edges.filterMap (fun e => if e.2.1 == n then some e.1 else none)

/-- `list(graph.successors(n))`: targets of the edges out of `n`, in edge
insertion order. -/
def successors (g : DiGraph) (n : String) : List String :=
  g.edges.filterMap (fun e => if e.1 == n then some e.2.1 else none)

/-- Edge membership by (source, target) key. -/
def hasEdge (g : DiGraph) (u v : String) : Bool :=
  g.edges.any (fun e => e.1 == u && e.2.1 == v)

end DiGraph

/-- Model of Python `s.startswith(p)`: prefix test on the character
sequence. -/
def pyStartsWith (s p : String) : Bool := p.data.isPrefixOf s.data

/-- Graph construction (`build_citation_graph`): law nodes, then case
nodes, then one edge per truthy referenced id of each reference record
(a record may contribute both a `cites_law` and a `cites_case` edge;
a record with neither id is a no-op). -/
def build_citation_graph (laws : List LawDetail) (cases : List CaseDetail)
    (refs : List CaseReference) : DiGraph :=
  let g := laws.foldl
    (fun g law => g.addEntityNode ("law_" ++ law.law_id)
      ⟨"law", law.law_name, .ofLaw law⟩) DiGraph.empty
  let g := cases.foldl
    (fun g c => g.addEntityNode ("case_" ++ c.case_id)
      ⟨"case", c.case_name, .ofCase c⟩) g
  refs.foldl
    (fun g r =>
      let g := match r.referenced_law_id with
        | some lid =>
          if lid == "" then g
          else g.addEdge ("case_" ++ r.case_id) ("law_" ++ lid) ⟨"cites_law", r.context⟩
        | none => g
      match r.referenced_case_id with
        | some cid =>
          if cid == "" then g
          else g.addEdge ("case_" ++ r.case_id) ("case_" ++ cid) ⟨"cites_case", r.context⟩
        | none => g) g

/-! ## PageRank (`nx.pagerank`, exact-arithmetic model)

The analyzer calls `nx.pagerank(self.graph)` with the library defaults:
damping `alpha = 0.85`, `max_iter = 100`, `tol = 1e-06`, uniform start
vector and personalization, unit edge weights, dangling mass redistributed
by the personalization vector. One power-iteration step over the
row-stochastic out-degree-normalized adjacency matrix is

  x'(v) = alpha * (sum_u x(u) * M(u, v) + danglesum * p(v)) + (1 - alpha) * p(v),

and the iteration stops successfully when the L1 change drops below
`N * tol`, raising `PowerIterationFailedConvergence` after `max_iter`
steps otherwise (modelled as `none`). Floating-point arithmetic is
modelled by exact rationals. -/

/-- Entry of the row-stochastic transition matrix: `1 / outdegree(u)` when
the edge `u -> v` exists, `0` otherwise. -/
def stochEntry (g : DiGraph) (u v : String) : ℚ :=
  if g.hasEdge u v then 1 / ((g.successors u).length : ℚ) else 0

/-- One power-iteration step of `nx.pagerank` (uniform personalization,
dangling mass redistributed uniformly). -/
def pagerankStep (g : DiGraph) (x : String → ℚ) : String → ℚ :=
  fun v =>
    let p : ℚ := 1 / (g.nodeIds.length : ℚ)
    let danglesum : ℚ :=
      ((g.nodeIds.filter (fun u => (g.successors u).length == 0)).map x).sum
    (85 / 100 : ℚ) * ((g.nodeIds.map (fun u => x u * stochEntry g u v)).sum
        + danglesum * p)
      + (15 / 100 : ℚ) * p

/-- L1 distance between successive iterates, summed over the node list. -/
def pagerankErr (g : DiGraph) (x xnew : String → ℚ) : ℚ :=
  (g.nodeIds.map (fun v => |xnew v - x v|)).sum

/-- The power-iteration loop of `nx.pagerank`: up to the given fuel
(`max_iter = 100`) steps; returns the first iterate whose L1 change from
its predecessor is below `N * tol`; `none` models the
`PowerIterationFailedConvergence` exception. -/
def pagerankLoop (g : DiGraph) : Nat → (String → ℚ) → Option (String → ℚ)
  | 0, _ => none
  | k + 1, x =>
    let xn := pagerankStep g x
    if pagerankErr g x xn < (g.nodeIds.length : ℚ) * (1 / 1000000) then some xn
    else pagerankLoop g k xn

/-- `nx.pagerank(graph)` as a total lookup: on success the returned
function models `result.get(n, 0.0)` (the stored score for graph nodes,
the default `0.0` otherwise); an empty graph returns the empty dict. -/
def pagerank (g : DiGraph) : Option (String → ℚ) :=
  if g.nodeIds.length == 0 then some (fun _ => 0)
  else
    match pagerankLoop g 100 (fun _ => 1 / (g.nodeIds.length : ℚ)) with
    | some x => some (fun n => if g.nodeIds.contains n then x n else 0)
    | none => none

/-- Relevance score (`_calculate_relevance_score`): `1.0` for a direct
citation; otherwise the case's global PageRank value (default `0.0` when
absent), falling back to `0.5` when the PageRank computation raises. -/
def calculate_relevance_score (g : DiGraph) (law_node case_node : String)
    (is_direct : Bool) : ℚ :=
  if is_direct then 1
  else
    match pagerank g with
    | some pr => pr case_node
    | none => 1 / 2

/-! ## Related-case search (`find_related_cases`) -/

/-- Entry of the `find_related_cases` result list. -/
structure RelatedCase where
  case_id : String
  case_name : String
  court_name : String
  decision_date : String
  relevance_score : ℚ
  is_direct_citation : Bool
deriving DecidableEq

/-- Read `graph.nodes[n]["data"]` expecting a case record: `none` models a
raised `KeyError` (node without attributes) or `AttributeError` (payload
without the accessed case fields). -/
def getCaseDetail (g : DiGraph) (n : String) : Option CaseDetail :=
  match g.attrsOf n with
  | some (some a) =>
    match a.data with
    | .ofCase c => some c
    | .ofLaw _ => none
  | _ => none

/-- Read `graph.nodes[n]["data"]` expecting a law record; `none` models the
raised `KeyError` / `AttributeError`. -/
def getLawDetail (g : DiGraph) (n : String) : Option LawDetail :=
  match g.attrsOf n with
  | some (some a) =>
    match a.data with
    | .ofLaw l => some l
    | .ofCase _ => none
  | _ => none

/-- Direct citers of the law node: `list(graph.predecessors(law_node))`. -/
def directCases (g : DiGraph) (law_node : String) : List String :=
  g.predecessors law_node

/-- Law nodes cited by a case node:
`[n for n in graph.successors(case_node) if n.startswith("law_")]`. -/
def otherLaws (g : DiGraph) (case_node : String) : List String :=
  (g.successors case_node).filter (fun n => pyStartsWith n "law_")

/-- The `indirect_cases` Python set: predecessors of every law cited by a
direct citer, accumulated as a set. -/
def indirectCases (g : DiGraph) (law_node : String) : Finset String :=
  ((directCases g law_node).flatMap
    (fun c => (otherLaws g c).flatMap (fun l => g.predecessors l))).toFinset

/-- The `all_cases` Python set: `set(direct_cases) | indirect_cases`. -/
def allCases (g : DiGraph) (law_node : String) : Finset String :=
  (directCases g law_node).toFinset ∪ indirectCases g law_node

/-- A list is a valid iteration order of the `all_cases` Python set:
it enumerates exactly the set's elements, each once. Python leaves the
iteration order of a `str` set unspecified (it depends on hash
randomization), so the analyzer is modelled as parametric in it. -/
def validEnum (g : DiGraph) (law_node : String) (enum : List String) : Prop :=
  enum.Nodup ∧ enum.toFinset = allCases g law_node

/-- One result entry of `find_related_cases`: the relevance score is
computed first, then the node payload is read (raising, modelled `none`,
for an attribute-less node). -/
def relatedEntry (g : DiGraph) (law_node : String) (direct : List String)
    (case_node : String) : Option RelatedCase :=
  let score := calculate_relevance_score g law_node case_node (direct.contains case_node)
  match getCaseDetail g case_node with
  | some cd =>
    some ⟨cd.case_id, cd.case_name, cd.court_name, cd.decision_date, score,
      direct.contains case_node⟩
  | none => none

/-- Python's `list.sort(key=key, reverse=True)`: a stable descending sort
on the key, modelled by a stable insertion sort (every stable sort of the
same keyed list produces the same output). -/
def pySortDesc {α : Type} (key : α → ℚ) (l : List α) : List α :=
  l.insertionSort (fun a b => key b ≤ key a)

/-- `find_related_cases(law_id)` on a built graph, parametric in the
iteration order `enum` of the `all_cases` set: empty list when the law
node is absent; otherwise one scored entry per discovered case, sorted by
relevance score descending (stable). `none` models a raised exception. -/
def find_related_cases (g : DiGraph) (law_id : String) (enum : List String) :
    Option (List RelatedCase) :=
  let law_node := "law_" ++ law_id
  if g.hasNode law_node then
    let direct := directCases g law_node
    match enum.mapM (relatedEntry g law_node direct) with
    | some results => some (pySortDesc (fun r => r.relevance_score) results)
    | none => none
  else some []

/-! ## Most-cited ranking (`get_most_cited_laws`) -/

/-- Entry of the `get_most_cited_laws` result list. -/
structure CitedLaw where
  law_id : String
  law_name : String
  citation_count : Nat
deriving DecidableEq

/-- The `law_`-prefixed nodes, in node-dict insertion (discovery) order:
the nodes visited by the `if node.startswith("law_")` loop of
`get_most_cited_laws`. -/
def lawNodes (g : DiGraph) : List String :=
  g.nodeIds.filter (fun n => pyStartsWith n "law_")

/-- One entry of the `law_citations` dict of `get_most_cited_laws`:
in-degree of the law node plus its payload; reading the payload raises
(modelled `none`) on an attribute-less node. -/
def citedLawEntry (g : DiGraph) (n : String) : Option CitedLaw :=
  match getLawDetail g n with
  | some ld => some ⟨ld.law_id, ld.law_name, (g.predecessors n).length⟩
  | none => none

/-- `get_most_cited_laws(limit)`: iterate the node dict in insertion
order, record every `law_`-prefixed node with its in-degree and payload,
sort stably by citation count descending, truncate to `limit`. -/
def get_most_cited_laws (g : DiGraph) (limit : Nat) : Option (List CitedLaw) :=
  match (lawNodes g).mapM (citedLawEntry g) with
  | some entries =>
    some ((pySortDesc (fun e => (e.citation_count : ℚ)) entries).take limit)
  | none => none

/-! ## Ego-network view (`visualize_relationships`) -/

/-- Node view-model emitted by `visualize_relationships`. -/
structure VisNode where
  id : String
  type : String
  name : String
  is_center : Bool
deriving DecidableEq

/-- Edge view-model emitted by `visualize_relationships`. -/
structure VisEdge where
  source : String
  target : String
  type : String
  context : Option String
deriving DecidableEq

/-- Result of `visualize_relationships`: the Python dict always carries
`nodes`, `edges` and `center`; the `error` key is present exactly on the
not-found path. -/
structure VisResult where
  nodes : List VisNode
  edges : List VisEdge
  center : String
  error : Option String
deriving DecidableEq

/-- Node set of `nx.ego_graph(g, c, radius=r)` (default `undirected=False`):
all nodes within `r` hops of `c` following edge direction, computed as the
`r`-fold successor closure of `{c}`. -/
def reachSet (g : DiGraph) (c : String) : Nat → Finset String
  | 0 => {c}
  | k + 1 =>
    let s := reachSet g c k
    s ∪ (g.edges.filterMap (fun e => if e.1 ∈ s then some e.2.1 else none)).toFinset

/-- `visualize_relationships(center_id, center_type, depth)`: in-band
not-found payload when the composed center id is absent; otherwise the
ego subgraph within `depth` hops (directed, the `nx.ego_graph` default)
serialized to node and edge view-models. Reading a node's `type`/`name`
attributes raises (modelled `none`) on an attribute-less node. -/
def visualize_relationships (g : DiGraph) (center_id : String)
    (center_type : String) (depth : Nat) : Option VisResult :=
  let center_node := center_type ++ "_" ++ center_id
  if g.hasNode center_node then
    let reach := reachSet g center_node depth
    let ns := g.nodeIds.filter (fun n => n ∈ reach)
    match ns.mapM (fun n => match g.attrsOf n with
        | some (some a) => some (⟨n, a.type, a.name, n == center_node⟩ : VisNode)
        | _ => none) with
    | some vnodes =>
      let vedges := ns.flatMap (fun u =>
        (g.edges.filter (fun e => e.1 == u && decide (e.2.1 ∈ reach))).map
          (fun e => (⟨e.1, e.2.1, e.2.2.type, e.2.2.context⟩ : VisEdge)))
      some ⟨vnodes, vedges, center_node, none⟩
    | none => none
  else some ⟨[], [], center_node, some "Node not found"⟩

/-! ## String-prefix lemmas for the `law_` / `case_` id namespaces -/

theorem pyStartsWith_self_append (p s : String) : pyStartsWith (p ++ s) p = true := by
  simp only [pyStartsWith, String.data_append, List.isPrefixOf_iff_prefix]
  exact List.prefix_append p.data s.data

theorem law_append_ne_case_append (a b : String) : "law_" ++ a ≠ "case_" ++ b := by
  intro h
  have hd := congrArg String.data h
  rw [String.data_append, String.data_append] at hd
  have h1 : "law_".data = ['l', 'a', 'w', '_'] := by decide
  have h2 : "case_".data = ['c', 'a', 's', 'e', '_'] := by decide
  rw [h1, h2] at hd
  simp at hd

theorem pyStartsWith_law_append_case (s : String) :
    pyStartsWith ("law_" ++ s) "case_" = false := by
  apply Bool.eq_false_iff.2
  intro h
  rw [pyStartsWith] at h
  have hp : "case_".data <+: ("law_" ++ s).data := List.isPrefixOf_iff_prefix.1 h
  rw [String.data_append] at hp
  have h1 : "law_".data = ['l', 'a', 'w', '_'] := by decide
  have h2 : "case_".data = ['c', 'a', 's', 'e', '_'] := by decide
  rw [h1, h2] at hp
  rcases hp with ⟨t, ht⟩
  simp at ht

theorem pyStartsWith_case_append_law (s : String) :
    pyStartsWith ("case_" ++ s) "law_" = false := by
  apply Bool.eq_false_iff.2
  intro h
  rw [pyStartsWith] at h
  have hp : "law_".data <+: ("case_" ++ s).data := List.isPrefixOf_iff_prefix.1 h
  rw [String.data_append] at hp
  have h1 : "law_".data = ['l', 'a', 'w', '_'] := by decide
  have h2 : "case_".data = ['c', 'a', 's', 'e', '_'] := by decide
  rw [h1, h2] at hp
  rcases hp with ⟨t, ht⟩
  simp at ht

theorem string_append_left_cancel {p a b : String} (h : p ++ a = p ++ b) : a = b := by
  have hd := congrArg String.data h
  rw [String.data_append, String.data_append] at hd
  have hc := List.append_cancel_left hd
  cases a; cases b; exact congrArg String.mk hc

/-! ## Basic graph-operation lemmas -/

namespace DiGraph

theorem hasNode_iff_mem {g : DiGraph} {n : String} :
    g.hasNode n = true ↔ n ∈ g.nodeIds := by
  simp [hasNode, List.elem_iff]

theorem addNodeList_map_fst (l : List (String × Option NodeAttrs)) (n : String)
    (a : Option NodeAttrs) :
    (addNodeList l n a).map Prod.fst =
      if n ∈ l.map Prod.fst then l.map Prod.fst else l.map Prod.fst ++ [n] := by
  induction l with
  | nil => simp [addNodeList]
  | cons p rest ih =>
    by_cases h : p.1 = n
    · simp [addNodeList, h]
    · have hne : (p.1 == n) = false := by simp [h]
      simp only [addNodeList, hne, Bool.false_eq_true, if_false, List.map_cons, ih]
      by_cases hm : n ∈ rest.map Prod.fst
      · simp [hm, h, Ne.symm h]
      · simp [hm, h, Ne.symm h]

theorem nodeIds_addEntityNode (g : DiGraph) (n : String) (a : NodeAttrs) :
    (g.addEntityNode n a).nodeIds =
      if g.hasNode n then g.nodeIds else g.nodeIds ++ [n] := by
  simp only [addEntityNode, nodeIds, addNodeList_map_fst]
  by_cases h : n ∈ g.nodes.map Prod.fst
  · have hh : g.hasNode n = true := hasNode_iff_mem.2 h
    simp [h, hh, nodeIds]
  · have : g.hasNode n = false := by
      rw [← Bool.not_eq_true, hasNode_iff_mem]; exact h
    simp [h, this, nodeIds]

theorem edges_addEntityNode (g : DiGraph) (n : String) (a : NodeAttrs) :
    (g.addEntityNode n a).edges = g.edges := rfl

theorem nodeIds_ensureNode (g : DiGraph) (n : String) :
    (g.ensureNode n).nodeIds = if g.hasNode n then g.nodeIds else g.nodeIds ++ [n] := by
  by_cases h : g.hasNode n
  · simp [ensureNode, h]
  · simp [ensureNode, h, nodeIds]

theorem edges_ensureNode (g : DiGraph) (n : String) :
    (g.ensureNode n).edges = g.edges := by
  by_cases h : g.hasNode n <;> simp [ensureNode, h]

theorem hasNode_ensureNode_self (g : DiGraph) (n : String) :
    (g.ensureNode n).hasNode n = true := by
  rw [hasNode_iff_mem, nodeIds_ensureNode]
  by_cases h : g.hasNode n
  · simp [h, ← hasNode_iff_mem]
  · simp [h]

theorem hasNode_ensureNode_mono {g : DiGraph} {m : String} (n : String)
    (h : g.hasNode m = true) : (g.ensureNode n).hasNode m = true := by
  rw [hasNode_iff_mem, nodeIds_ensureNode]
  by_cases hn : g.hasNode n
  · simp [hn, ← hasNode_iff_mem, h]
  · rw [hasNode_iff_mem] at h
    simp [hn, h]

theorem nodeIds_addEdge (g : DiGraph) (u v : String) (a : EdgeAttrs) :
    (g.addEdge u v a).nodeIds = ((g.ensureNode u).ensureNode v).nodeIds := rfl

theorem edges_addEdge (g : DiGraph) (u v : String) (a : EdgeAttrs) :
    (g.addEdge u v a).edges = addEdgeList g.edges u v a := by
  simp [addEdge, edges_ensureNode]

theorem addEdgeList_map_key (l : List (String × String × EdgeAttrs)) (u v : String)
    (a : EdgeAttrs) :
    (addEdgeList l u v a).map (fun e => (e.1, e.2.1)) =
      if (u, v) ∈ l.map (fun e => (e.1, e.2.1)) then l.map (fun e => (e.1, e.2.1))
      else l.map (fun e => (e.1, e.2.1)) ++ [(u, v)] := by
  induction l with
  | nil => simp [addEdgeList]
  | cons p rest ih =>
    by_cases h : p.1 = u ∧ p.2.1 = v
    · have hb : (p.1 == u && p.2.1 == v) = true := by simp [h.1, h.2]
      simp [addEdgeList, hb, h.1, h.2]
    · have hb : (p.1 == u && p.2.1 == v) = false := by
        rcases not_and_or.1 h with h1 | h1 <;> simp [h1]
      have hkey : ¬ ((u, v) = (p.1, p.2.1)) := by
        intro he
        exact h ⟨(Prod.mk.injEq _ _ _ _ ▸ he).1.symm, (Prod.mk.injEq _ _ _ _ ▸ he).2.symm⟩
      simp only [addEdgeList, hb, Bool.false_eq_true, if_false, List.map_cons, ih]
      by_cases hm : (u, v) ∈ rest.map (fun e => (e.1, e.2.1))
      · simp [hm, hkey]
      · simp [hm, hkey]

theorem mem_addEdgeList {l : List (String × String × EdgeAttrs)} {u v : String}
    {a : EdgeAttrs} {e : String × String × EdgeAttrs} (h : e ∈ addEdgeList l u v a) :
    e ∈ l ∨ (e.1 = u ∧ e.2.1 = v) := by
  induction l with
  | nil =>
    simp only [addEdgeList, List.mem_singleton] at h
    subst h; right; exact ⟨rfl, rfl⟩
  | cons p rest ih =>
    by_cases hb : (p.1 == u && p.2.1 == v) = true
    · simp only [addEdgeList, hb, if_true] at h
      rcases List.mem_cons.1 h with h1 | h1
      · subst h1
        right
        simp only [Bool.and_eq_true, beq_iff_eq] at hb
        exact hb
      · left; exact List.mem_cons_of_mem _ h1
    · simp only [addEdgeList, hb, if_false] at h
      rcases List.mem_cons.1 h with h1 | h1
      · left; subst h1; exact List.mem_cons_self _ _
      · rcases ih h1 with h2 | h2
        · left; exact List.mem_cons_of_mem _ h2
        · right; exact h2

theorem mem_successors {g : DiGraph} {u v : String} :
    v ∈ g.successors u ↔ ∃ e ∈ g.edges, e.1 = u ∧ e.2.1 = v := by
  simp only [successors, List.mem_filterMap]
  constructor
  · rintro ⟨e, he, hf⟩
    by_cases h : e.1 = u
    · refine ⟨e, he, h, ?_⟩
      simp [h] at hf
      exact hf
    · simp [h] at hf
  · rintro ⟨e, he, h1, h2⟩
    exact ⟨e, he, by simp [h1, h2]⟩

theorem mem_predecessors {g : DiGraph} {c n : String} :
    c ∈ g.predecessors n ↔ ∃ e ∈ g.edges, e.1 = c ∧ e.2.1 = n := by
  simp only [predecessors, List.mem_filterMap]
  constructor
  · rintro ⟨e, he, hf⟩
    by_cases h : e.2.1 = n
    · refine ⟨e, he, ?_, h⟩
      simp [h] at hf
      exact hf
    · simp [h] at hf
  · rintro ⟨e, he, h1, h2⟩
    exact ⟨e, he, by simp [h1, h2]⟩

theorem hasEdge_iff {g : DiGraph} {u v : String} :
    g.hasEdge u v = true ↔ ∃ e ∈ g.edges, e.1 = u ∧ e.2.1 = v := by
  simp [hasEdge, List.any_eq_true]

theorem hasEdge_iff_mem_successors {g : DiGraph} {u v : String} :
    g.hasEdge u v = true ↔ v ∈ g.successors u := by
  rw [hasEdge_iff, mem_successors]

theorem hasEdge_iff_mem_predecessors {g : DiGraph} {u v : String} :
    g.hasEdge u v = true ↔ u ∈ g.predecessors v := by
  rw [hasEdge_iff, mem_predecessors]

theorem successors_eq_filter (g : DiGraph) (u : String) :
    g.successors u = (g.edges.filter (fun e => e.1 == u)).map (fun e => e.2.1) := by
  simp only [successors]
  induction g.edges with
  | nil => rfl
  | cons e rest ih =>
    cases hb : (e.1 == u) with
    | true =>
      simp only [List.filterMap_cons, List.filter_cons, hb, if_true, List.map_cons]
      rw [ih]
    | false =>
      simp only [List.filterMap_cons, List.filter_cons, hb, Bool.false_eq_true, if_false]
      rw [ih]

theorem predecessors_eq_filter (g : DiGraph) (n : String) :
    g.predecessors n = (g.edges.filter (fun e => e.2.1 == n)).map (fun e => e.1) := by
  simp only [predecessors]
  induction g.edges with
  | nil => rfl
  | cons e rest ih =>
    cases hb : (e.2.1 == n) with
    | true =>
      simp only [List.filterMap_cons, List.filter_cons, hb, if_true, List.map_cons]
      rw [ih]
    | false =>
      simp only [List.filterMap_cons, List.filter_cons, hb, Bool.false_eq_true, if_false]
      rw [ih]

theorem nodup_snd_of_const_fst {l : List (String × String × EdgeAttrs)} {u : String}
    (hk : (l.map (fun e => (e.1, e.2.1))).Nodup) (hc : ∀ e ∈ l, e.1 = u) :
    (l.map (fun e => e.2.1)).Nodup := by
  induction l with
  | nil => simp
  | cons e rest ih =>
    simp only [List.map_cons, List.nodup_cons] at hk ⊢
    refine ⟨?_, ih hk.2 (fun x hx => hc x (List.mem_cons_of_mem _ hx))⟩
    intro hmem
    rcases List.mem_map.1 hmem with ⟨x, hx, hxe⟩
    apply hk.1
    rw [List.mem_map]
    refine ⟨x, hx, ?_⟩
    have h1 : e.1 = u := hc e (List.mem_cons_self _ _)
    have h2 : x.1 = u := hc x (List.mem_cons_of_mem _ hx)
    rw [h1, h2, hxe]

theorem nodup_fst_of_const_snd {l : List (String × String × EdgeAttrs)} {n : String}
    (hk : (l.map (fun e => (e.1, e.2.1))).Nodup) (hc : ∀ e ∈ l, e.2.1 = n) :
    (l.map (fun e => e.1)).Nodup := by
  induction l with
  | nil => simp
  | cons e rest ih =>
    simp only [List.map_cons, List.nodup_cons] at hk ⊢
    refine ⟨?_, ih hk.2 (fun x hx => hc x (List.mem_cons_of_mem _ hx))⟩
    intro hmem
    rcases List.mem_map.1 hmem with ⟨x, hx, hxe⟩
    apply hk.1
    rw [List.mem_map]
    refine ⟨x, hx, ?_⟩
    have h1 : e.2.1 = n := hc e (List.mem_cons_self _ _)
    have h2 : x.2.1 = n := hc x (List.mem_cons_of_mem _ hx)
    rw [h1, h2, hxe]

theorem attrsOf_eq_some {g : DiGraph} {n : String} {a : Option NodeAttrs}
    (h : g.attrsOf n = some a) : (n, a) ∈ g.nodes := by
  simp only [attrsOf, Option.map_eq_some'] at h
  rcases h with ⟨p, hp, hpa⟩
  have hmem := List.mem_of_find?_eq_some hp
  have hpred := List.find?_some hp
  simp only [beq_iff_eq] at hpred
  rw [← hpred, ← hpa]
  exact hmem

theorem mem_addNodeList {l : List (String × Option NodeAttrs)} {n : String}
    {a : Option NodeAttrs} {p : String × Option NodeAttrs}
    (h : p ∈ addNodeList l n a) : p ∈ l ∨ p = (n, a) := by
  induction l with
  | nil =>
    simp only [addNodeList, List.mem_singleton] at h
    right; exact h
  | cons q rest ih =>
    obtain ⟨m, b⟩ := q
    by_cases hq : m = n
    · have hb : (m == n) = true := by simp [hq]
      simp only [addNodeList, hb, if_true] at h
      rcases List.mem_cons.1 h with h1 | h1
      · right; rw [h1, hq]
      · left; exact List.mem_cons_of_mem _ h1
    · have hb : (m == n) = false := by simp [hq]
      simp only [addNodeList, hb, Bool.false_eq_true, if_false] at h
      rcases List.mem_cons.1 h with h1 | h1
      · left; rw [h1]; exact List.mem_cons_self _ _
      · rcases ih h1 with h2 | h2
        · left; exact List.mem_cons_of_mem _ h2
        · right; exact h2

end DiGraph

/-! ## Well-formedness invariant of built graphs -/

/-- Structural invariants that `build_citation_graph` guarantees:
node keys are unique; edge (source, target) keys are unique; every edge
endpoint is a node; every edge source lives in the `case_` namespace; and
every attribute dict actually stored is a law dict on a `law_`-composed id
or a case dict on a `case_`-composed id. -/
structure GraphWF (g : DiGraph) : Prop where
  nodesNodup : g.nodeIds.Nodup
  edgeKeysNodup : (g.edges.map (fun e => (e.1, e.2.1))).Nodup
  srcMem : ∀ e ∈ g.edges, e.1 ∈ g.nodeIds
  tgtMem : ∀ e ∈ g.edges, e.2.1 ∈ g.nodeIds
  srcCase : ∀ e ∈ g.edges, pyStartsWith e.1 "case_" = true
  attrsShape : ∀ p ∈ g.nodes, ∀ a, p.2 = some a →
    (a.type = "law" ∧ ∃ l, a.data = .ofLaw l ∧ p.1 = "law_" ++ l.law_id) ∨
    (a.type = "case" ∧ ∃ c, a.data = .ofCase c ∧ p.1 = "case_" ++ c.case_id)

theorem graphWF_empty : GraphWF DiGraph.empty := by
  constructor <;> simp [DiGraph.empty, DiGraph.nodeIds]

theorem DiGraph.foldl_preserve {α : Type} (P : DiGraph → Prop) (f : DiGraph → α → DiGraph)
    (l : List α) (g : DiGraph) (h0 : P g) (hstep : ∀ h a, a ∈ l → P h → P (f h a)) :
    P (l.foldl f g) := by
  induction l generalizing g with
  | nil => exact h0
  | cons x xs ih =>
    exact ih (f g x) (hstep g x (List.mem_cons_self _ _) h0)
      (fun h a ha => hstep h a (List.mem_cons_of_mem _ ha))

theorem graphWF_addEntityNode {g : DiGraph} (hwf : GraphWF g) (a : NodeAttrs)
    (n : String)
    (hshape : (a.type = "law" ∧ ∃ l, a.data = .ofLaw l ∧ n = "law_" ++ l.law_id) ∨
      (a.type = "case" ∧ ∃ c, a.data = .ofCase c ∧ n = "case_" ++ c.case_id)) :
    GraphWF (g.addEntityNode n a) := by
  have hids := g.nodeIds_addEntityNode n a
  constructor
  · rw [hids]
    by_cases h : g.hasNode n
    · simp [h, hwf.nodesNodup]
    · have hn : n ∉ g.nodeIds := fun hm => h (DiGraph.hasNode_iff_mem.2 hm)
      rw [if_neg h]
      refine List.Nodup.append hwf.nodesNodup (List.nodup_singleton n) ?_
      intro x hx hx2
      simp only [List.mem_singleton] at hx2
      subst hx2
      exact hn hx
  · rw [DiGraph.edges_addEntityNode]; exact hwf.edgeKeysNodup
  · intro e he
    rw [DiGraph.edges_addEntityNode] at he
    rw [hids]
    have := hwf.srcMem e he
    by_cases h : g.hasNode n <;> simp [h, this]
  · intro e he
    rw [DiGraph.edges_addEntityNode] at he
    rw [hids]
    have := hwf.tgtMem e he
    by_cases h : g.hasNode n <;> simp [h, this]
  · intro e he
    rw [DiGraph.edges_addEntityNode] at he
    exact hwf.srcCase e he
  · intro p hp b hb
    rcases DiGraph.mem_addNodeList hp with h1 | h1
    · exact hwf.attrsShape p h1 b hb
    · rw [h1] at hb ⊢
      simp only at hb
      cases hb
      exact hshape

theorem graphWF_ensureNode {g : DiGraph} (hwf : GraphWF g) (n : String) :
    GraphWF (g.ensureNode n) := by
  have hids := g.nodeIds_ensureNode n
  have hedges := g.edges_ensureNode n
  constructor
  · rw [hids]
    by_cases h : g.hasNode n
    · simp [h, hwf.nodesNodup]
    · have hn : n ∉ g.nodeIds := fun hm => h (DiGraph.hasNode_iff_mem.2 hm)
      rw [if_neg h]
      refine List.Nodup.append hwf.nodesNodup (List.nodup_singleton n) ?_
      intro x hx hx2
      simp only [List.mem_singleton] at hx2
      subst hx2
      exact hn hx
  · rw [hedges]; exact hwf.edgeKeysNodup
  · intro e he
    rw [hedges] at he
    rw [hids]
    have := hwf.srcMem e he
    by_cases h : g.hasNode n <;> simp [h, this]
  · intro e he
    rw [hedges] at he
    rw [hids]
    have := hwf.tgtMem e he
    by_cases h : g.hasNode n <;> simp [h, this]
  · intro e he
    rw [hedges] at he
    exact hwf.srcCase e he
  · intro p hp b hb
    by_cases h : g.hasNode n
    · simp only [DiGraph.ensureNode, h, if_true] at hp
      exact hwf.attrsShape p hp b hb
    · simp only [DiGraph.ensureNode, h, Bool.false_eq_true, if_false,
        List.mem_append, List.mem_singleton] at hp
      rcases hp with h1 | h1
      · exact hwf.attrsShape p h1 b hb
      · rw [h1] at hb
        simp at hb

theorem graphWF_addEdge {g : DiGraph} (hwf : GraphWF g) {u : String} (v : String)
    (a : EdgeAttrs) (hu : pyStartsWith u "case_" = true) :
    GraphWF (g.addEdge u v a) := by
  have hwf2 : GraphWF ((g.ensureNode u).ensureNode v) :=
    graphWF_ensureNode (graphWF_ensureNode hwf u) v
  have humem : u ∈ ((g.ensureNode u).ensureNode v).nodeIds :=
    DiGraph.hasNode_iff_mem.1
      (DiGraph.hasNode_ensureNode_mono v (g.hasNode_ensureNode_self u))
  have hvmem : v ∈ ((g.ensureNode u).ensureNode v).nodeIds :=
    DiGraph.hasNode_iff_mem.1 ((g.ensureNode u).hasNode_ensureNode_self v)
  have hE : ((g.ensureNode u).ensureNode v).edges = g.edges := by
    rw [DiGraph.edges_ensureNode, DiGraph.edges_ensureNode]
  have hkn : (g.edges.map (fun e => (e.1, e.2.1))).Nodup := by
    have := hwf2.edgeKeysNodup
    rwa [hE] at this
  have hkeys := DiGraph.addEdgeList_map_key g.edges u v a
  constructor
  · exact hwf2.nodesNodup
  · rw [DiGraph.edges_addEdge, hkeys]
    by_cases h : (u, v) ∈ g.edges.map (fun e => (e.1, e.2.1))
    · rw [if_pos h]; exact hkn
    · rw [if_neg h]
      refine List.Nodup.append hkn (List.nodup_singleton _) ?_
      intro x hx hx2
      simp only [List.mem_singleton] at hx2
      subst hx2
      exact h hx
  · intro e he
    rw [DiGraph.edges_addEdge] at he
    rcases DiGraph.mem_addEdgeList he with h1 | h1
    · exact hwf2.srcMem e (hE ▸ h1)
    · rw [h1.1]; exact humem
  · intro e he
    rw [DiGraph.edges_addEdge] at he
    rcases DiGraph.mem_addEdgeList he with h1 | h1
    · exact hwf2.tgtMem e (hE ▸ h1)
    · rw [h1.2]; exact hvmem
  · intro e he
    rw [DiGraph.edges_addEdge] at he
    rcases DiGraph.mem_addEdgeList he with h1 | h1
    · exact hwf2.srcCase e (hE ▸ h1)
    · rw [h1.1]; exact hu
  · intro p hp b hb
    exact hwf2.attrsShape p hp b hb

/-- Every graph produced by `build_citation_graph` satisfies the structural
invariant. -/
theorem build_graphWF (laws : List LawDetail) (cases : List CaseDetail)
    (refs : List CaseReference) : GraphWF (build_citation_graph laws cases refs) := by
  unfold build_citation_graph
  apply DiGraph.foldl_preserve GraphWF _ refs
  · apply DiGraph.foldl_preserve GraphWF _ cases
    · apply DiGraph.foldl_preserve GraphWF _ laws
      · exact graphWF_empty
      · intro h l _ hwf
        exact graphWF_addEntityNode hwf _ _ (Or.inl ⟨rfl, l, rfl, rfl⟩)
    · intro h c _ hwf
      exact graphWF_addEntityNode hwf _ _ (Or.inr ⟨rfl, c, rfl, rfl⟩)
  · intro h r _ hwf
    have step1 : GraphWF (match r.referenced_law_id with
        | some lid =>
          if lid == "" then h
          else h.addEdge ("case_" ++ r.case_id) ("law_" ++ lid) ⟨"cites_law", r.context⟩
        | none => h) := by
      cases hl : r.referenced_law_id with
      | none => exact hwf
      | some lid =>
        by_cases he : lid == ""
        · simp only [he, if_true]; exact hwf
        · simp only [he, if_false]
          exact graphWF_addEdge hwf _ _ (pyStartsWith_self_append "case_" r.case_id)
    cases hc : r.referenced_case_id with
    | none => exact step1
    | some cid =>
      by_cases he : cid == ""
      · simp only [he, if_true]; exact step1
      · simp only [he, if_false]
        exact graphWF_addEdge step1 _ _ (pyStartsWith_self_append "case_" r.case_id)

/-! ## `mapM` over `Option` as an elementwise relation -/

theorem mapM_option_eq_some {α β : Type} {f : α → Option β} :
    ∀ {l : List α} {res : List β},
    l.mapM f = some res ↔ List.Forall₂ (fun a b => f a = some b) l res := by
  intro l
  induction l with
  | nil =>
    intro res
    constructor
    · intro h
      simp only [List.mapM_nil, pure, Option.some.injEq] at h
      rw [← h]
      exact List.Forall₂.nil
    · intro h
      cases h
      rfl
  | cons a l ih =>
    intro res
    rw [← List.mapM'_eq_mapM]
    constructor
    · intro h
      simp only [List.mapM'] at h
      cases hfa : f a with
      | none => rw [hfa] at h; simp at h
      | some b =>
        rw [hfa] at h
        simp only [Option.bind_eq_bind, Option.some_bind] at h
        cases hrest : l.mapM' f with
        | none => rw [hrest] at h; simp at h
        | some bs =>
          rw [hrest] at h
          simp only [Option.some_bind, pure, Option.some.injEq] at h
          rw [← h]
          rw [List.mapM'_eq_mapM] at hrest
          exact List.Forall₂.cons hfa (ih.1 hrest)
    · intro h
      cases h with
      | cons hab htail =>
        simp only [List.mapM']
        rw [hab]
        have := ih.2 htail
        rw [← List.mapM'_eq_mapM] at this
        rw [this]
        rfl

theorem forall2_mem_right {α β : Type} {R : α → β → Prop} :
    ∀ {l : List α} {l' : List β}, List.Forall₂ R l l' → ∀ b ∈ l', ∃ a ∈ l, R a b := by
  intro l l' h
  induction h with
  | nil => intro b hb; cases hb
  | cons hab _ ih =>
    intro b hb
    rcases List.mem_cons.1 hb with h1 | h1
    · subst h1; exact ⟨_, List.mem_cons_self _ _, hab⟩
    · rcases ih b h1 with ⟨a, ha, hr⟩
      exact ⟨a, List.mem_cons_of_mem _ ha, hr⟩

theorem forall2_pairwise {α β : Type} {R : α → β → Prop} {S : α → α → Prop}
    {T : β → β → Prop}
    (himp : ∀ a b a2 b2, R a a2 → R b b2 → S a b → T a2 b2) :
    ∀ {l : List α} {l' : List β}, List.Forall₂ R l l' → l.Pairwise S → l'.Pairwise T := by
  intro l l' h
  induction h with
  | nil => intro _; exact List.Pairwise.nil
  | cons hab htail ih =>
    intro hp
    rcases List.pairwise_cons.1 hp with ⟨hhead, htl⟩
    refine List.Pairwise.cons ?_ (ih htl)
    intro b2 hb2
    rcases forall2_mem_right htail b2 hb2 with ⟨b, hb, hr⟩
    exact himp _ b _ b2 hab hr (hhead b hb)

/-! ## Stable descending sort: ordering lemmas -/

/-- Descending comparison on a rational key (the relation realised by
Python's `sort(key=..., reverse=True)`). -/
def keyDesc {α : Type} (key : α → ℚ) (a b : α) : Prop := key b ≤ key a

instance {α : Type} (key : α → ℚ) : DecidableRel (keyDesc key) :=
  fun a b => by unfold keyDesc; infer_instance

instance {α : Type} (key : α → ℚ) : IsTotal α (keyDesc key) :=
  ⟨fun a b => le_total (key b) (key a)⟩

instance {α : Type} (key : α → ℚ) : IsTrans α (keyDesc key) :=
  ⟨fun _ _ _ hab hbc => le_trans hbc hab⟩

/-- Lexicographic strengthening of the descending key order: strictly
larger key first, ties resolved by a position index. A stable descending
sort of a list whose indices strictly increase is sorted under this
relation. -/
def lexDesc {α : Type} (key : α → ℚ) (idx : α → ℕ) (a b : α) : Prop :=
  key b < key a ∨ (key b = key a ∧ idx a ≤ idx b)

instance {α : Type} (key : α → ℚ) (idx : α → ℕ) : DecidableRel (lexDesc key idx) :=
  fun a b => by unfold lexDesc; infer_instance

instance {α : Type} (key : α → ℚ) (idx : α → ℕ) : IsTotal α (lexDesc key idx) := by
  constructor
  intro a b
  rcases lt_trichotomy (key a) (key b) with h | h | h
  · right; left; exact h
  · rcases le_total (idx a) (idx b) with h2 | h2
    · left; right; exact ⟨h.symm, h2⟩
    · right; right; exact ⟨h, h2⟩
  · left; left; exact h

instance {α : Type} (key : α → ℚ) (idx : α → ℕ) : IsTrans α (lexDesc key idx) := by
  constructor
  intro a b c hab hbc
  rcases hab with h1 | ⟨h1, h1i⟩ <;> rcases hbc with h2 | ⟨h2, h2i⟩
  · left; exact h2.trans h1
  · left; rw [h2]; exact h1
  · left; rw [← h1]; exact h2
  · right; exact ⟨h2.trans h1, h1i.trans h2i⟩

theorem pySortDesc_perm {α : Type} (key : α → ℚ) (l : List α) :
    List.Perm (pySortDesc key l) l := List.perm_insertionSort _ l

theorem pySortDesc_sorted {α : Type} (key : α → ℚ) (l : List α) :
    (pySortDesc key l).Sorted (keyDesc key) := by
  have h := List.sorted_insertionSort (keyDesc key) l
  simpa [pySortDesc, keyDesc] using h

theorem orderedInsert_congr_left {α : Type} (r s : α → α → Prop) [DecidableRel r]
    [DecidableRel s] (x : α) :
    ∀ (l : List α), (∀ b ∈ l, (r x b ↔ s x b)) →
      List.orderedInsert r x l = List.orderedInsert s x l := by
  intro l
  induction l with
  | nil => intro _; rfl
  | cons y ys ih =>
    intro h
    by_cases hr : r x y
    · have hs : s x y := (h y (List.mem_cons_self _ _)).1 hr
      simp [List.orderedInsert, hr, hs]
    · have hs : ¬ s x y := fun hs2 => hr ((h y (List.mem_cons_self _ _)).2 hs2)
      simp only [List.orderedInsert, if_neg hr, if_neg hs]
      rw [ih (fun b hb => h b (List.mem_cons_of_mem _ hb))]

theorem insertionSort_eq_lexDesc {α : Type} (key : α → ℚ) (idx : α → ℕ) :
    ∀ (l : List α), l.Pairwise (fun a b => idx a < idx b) →
      l.insertionSort (keyDesc key) = l.insertionSort (lexDesc key idx) := by
  intro l
  induction l with
  | nil => intro _; rfl
  | cons x xs ih =>
    intro hp
    rcases List.pairwise_cons.1 hp with ⟨hhead, htail⟩
    show List.orderedInsert (keyDesc key) x (xs.insertionSort (keyDesc key)) =
      List.orderedInsert (lexDesc key idx) x (xs.insertionSort (lexDesc key idx))
    rw [ih htail]
    apply orderedInsert_congr_left
    intro b hb
    have hbxs : b ∈ xs := (List.perm_insertionSort (lexDesc key idx) xs).mem_iff.1 hb
    have hidx : idx x < idx b := hhead b hbxs
    unfold keyDesc lexDesc
    constructor
    · intro hle
      rcases lt_or_eq_of_le hle with h1 | h1
      · left; exact h1
      · right; exact ⟨h1, le_of_lt hidx⟩
    · intro hlex
      rcases hlex with h1 | ⟨h1, _⟩
      · exact le_of_lt h1
      · exact le_of_eq h1

/-- The stable descending sort of a list with strictly increasing position
indices is sorted under the lexicographic relation (key descending, index
ascending on ties): this is exactly the stability property of Python's
`list.sort(..., reverse=True)`. -/
theorem pySortDesc_sorted_lexDesc {α : Type} (key : α → ℚ) (idx : α → ℕ)
    (l : List α) (hl : l.Pairwise (fun a b => idx a < idx b)) :
    (pySortDesc key l).Sorted (lexDesc key idx) := by
  have heq : pySortDesc key l = List.insertionSort (lexDesc key idx) l := by
    rw [show pySortDesc key l = List.insertionSort (keyDesc key) l from rfl]
    exact insertionSort_eq_lexDesc key idx l hl
  rw [heq]
  exact List.sorted_insertionSort (lexDesc key idx) l

theorem nodup_pairwise_indexOf {l : List String} (h : l.Nodup) :
    l.Pairwise (fun a b => l.indexOf a < l.indexOf b) := by
  rw [List.pairwise_iff_getElem]
  intro i j hi hj hij
  rw [List.indexOf_getElem h i hi, List.indexOf_getElem h j hj]
  exact hij

/-! ## PageRank stays a probability distribution -/

/-- A score vector is a probability distribution over the graph's nodes:
nonnegative there, summing to one. Power iteration preserves this. -/
def IsDist (g : DiGraph) (x : String → ℚ) : Prop :=
  (∀ u ∈ g.nodeIds, 0 ≤ x u) ∧ (g.nodeIds.map x).sum = 1

theorem successors_mem_nodeIds {g : DiGraph} (hwf : GraphWF g) {u v : String}
    (h : v ∈ g.successors u) : v ∈ g.nodeIds := by
  rcases DiGraph.mem_successors.1 h with ⟨e, he, _, h2⟩
  rw [← h2]
  exact hwf.tgtMem e he

theorem successors_nodup {g : DiGraph} (hwf : GraphWF g) (u : String) :
    (g.successors u).Nodup := by
  rw [DiGraph.successors_eq_filter]
  apply DiGraph.nodup_snd_of_const_fst (u := u)
  · exact List.Nodup.sublist (List.Sublist.map _ (List.filter_sublist g.edges))
      hwf.edgeKeysNodup
  · intro e he
    have := (List.mem_filter.1 he).2
    simpa using this

theorem predecessors_nodup {g : DiGraph} (hwf : GraphWF g) (n : String) :
    (g.predecessors n).Nodup := by
  rw [DiGraph.predecessors_eq_filter]
  apply DiGraph.nodup_fst_of_const_snd (n := n)
  · exact List.Nodup.sublist (List.Sublist.map _ (List.filter_sublist g.edges))
      hwf.edgeKeysNodup
  · intro e he
    have := (List.mem_filter.1 he).2
    simpa using this

theorem stochEntry_nonneg (g : DiGraph) (u v : String) : 0 ≤ stochEntry g u v := by
  unfold stochEntry
  by_cases h : g.hasEdge u v
  · rw [if_pos h]
    positivity
  · rw [if_neg h]

theorem sum_stochEntry_row {g : DiGraph} (hwf : GraphWF g) (u : String) :
    (g.nodeIds.toFinset.sum (fun v => stochEntry g u v)) =
      if (g.successors u).length = 0 then 0 else 1 := by
  have hfilter : g.nodeIds.toFinset.filter (fun v => g.hasEdge u v = true) =
      (g.successors u).toFinset := by
    ext v
    simp only [Finset.mem_filter, List.mem_toFinset]
    constructor
    · rintro ⟨_, h2⟩
      exact DiGraph.hasEdge_iff_mem_successors.1 h2
    · intro h
      exact ⟨successors_mem_nodeIds hwf h, DiGraph.hasEdge_iff_mem_successors.2 h⟩
  have hcard : ((g.successors u).toFinset).card = (g.successors u).length :=
    List.toFinset_card_of_nodup (successors_nodup hwf u)
  unfold stochEntry
  rw [Finset.sum_ite, Finset.sum_const, Finset.sum_const_zero, add_zero, hfilter, hcard,
    nsmul_eq_mul]
  by_cases h : (g.successors u).length = 0
  · rw [if_pos h, h]
    simp
  · rw [if_neg h]
    have hne : ((g.successors u).length : ℚ) ≠ 0 := Nat.cast_ne_zero.2 h
    field_simp

theorem pagerankStep_nonneg {g : DiGraph} (x : String → ℚ)
    (hx : ∀ u ∈ g.nodeIds, 0 ≤ x u) (v : String) : 0 ≤ pagerankStep g x v := by
  unfold pagerankStep
  have hp : (0 : ℚ) ≤ 1 / (g.nodeIds.length : ℚ) := by positivity
  have hS : (0 : ℚ) ≤ (g.nodeIds.map (fun u => x u * stochEntry g u v)).sum := by
    apply List.sum_nonneg
    intro a ha
    rcases List.mem_map.1 ha with ⟨u, hu, hua⟩
    rw [← hua]
    exact mul_nonneg (hx u hu) (stochEntry_nonneg g u v)
  have hD : (0 : ℚ) ≤
      ((g.nodeIds.filter (fun u => (g.successors u).length == 0)).map x).sum := by
    apply List.sum_nonneg
    intro a ha
    rcases List.mem_map.1 ha with ⟨u, hu, hua⟩
    rw [← hua]
    exact hx u (List.mem_of_mem_filter hu)
  positivity

theorem list_sum_eq_toFinset_sum {l : List String} (h : l.Nodup) (f : String → ℚ) :
    (l.map f).sum = l.toFinset.sum f := (List.sum_toFinset f h).symm

theorem pagerankStep_sum {g : DiGraph} (hwf : GraphWF g) (hne : g.nodeIds ≠ [])
    (x : String → ℚ) (hsum : (g.nodeIds.map x).sum = 1) :
    (g.nodeIds.map (pagerankStep g x)).sum = 1 := by
  have hnd := hwf.nodesNodup
  have hNq : ((g.nodeIds.length : ℚ)) ≠ 0 := by
    have : g.nodeIds.length ≠ 0 := fun h0 => hne (List.length_eq_zero.1 h0)
    exact Nat.cast_ne_zero.2 this
  set L := g.nodeIds with hL
  set Lf := L.toFinset with hLf
  set p : ℚ := 1 / (L.length : ℚ) with hp
  set D : ℚ := ((L.filter (fun u => (g.successors u).length == 0)).map x).sum with hD
  have hfin : (L.map (pagerankStep g x)).sum = Lf.sum (pagerankStep g x) :=
    list_sum_eq_toFinset_sum hnd _
  have hcardL : Lf.card = L.length := List.toFinset_card_of_nodup hnd
  have hsumf : Lf.sum x = 1 := by
    rw [← list_sum_eq_toFinset_sum hnd]
    exact hsum
  have hinner : ∀ v, (L.map (fun u => x u * stochEntry g u v)).sum =
      Lf.sum (fun u => x u * stochEntry g u v) := by
    intro v
    exact list_sum_eq_toFinset_sum hnd _
  have hDf : D = Lf.sum (fun u => if (g.successors u).length = 0 then x u else 0) := by
    rw [hD]
    have hnd2 : (L.filter (fun u => (g.successors u).length == 0)).Nodup :=
      List.Nodup.filter _ hnd
    rw [list_sum_eq_toFinset_sum hnd2, List.toFinset_filter]
    rw [Finset.sum_ite, Finset.sum_const_zero, add_zero]
    apply Finset.sum_congr
    · apply Finset.filter_congr
      intro u _
      simp
    · intro u _
      rfl
  have hrow : ∀ u ∈ Lf, Lf.sum (fun v => x u * stochEntry g u v) =
      x u * (if (g.successors u).length = 0 then 0 else 1) := by
    intro u _
    rw [← Finset.mul_sum]
    rw [sum_stochEntry_row hwf u]
  calc (L.map (pagerankStep g x)).sum
      = Lf.sum (pagerankStep g x) := hfin
    _ = Lf.sum (fun v => (85 / 100 : ℚ) * (Lf.sum (fun u => x u * stochEntry g u v)
          + D * p) + (15 / 100 : ℚ) * p) := by
        apply Finset.sum_congr rfl
        intro v _
        unfold pagerankStep
        rw [hinner v]
    _ = (85 / 100 : ℚ) * (Lf.sum (fun v => Lf.sum (fun u => x u * stochEntry g u v))
          + Lf.card * (D * p)) + Lf.card * ((15 / 100 : ℚ) * p) := by
        rw [Finset.sum_add_distrib, ← Finset.mul_sum, Finset.sum_add_distrib,
          Finset.sum_const, Finset.sum_const, nsmul_eq_mul, nsmul_eq_mul, mul_add]
    _ = (85 / 100 : ℚ) * ((1 - D) + D) + (15 / 100 : ℚ) := by
        have hswap : Lf.sum (fun v => Lf.sum (fun u => x u * stochEntry g u v)) =
            Lf.sum (fun u => Lf.sum (fun v => x u * stochEntry g u v)) :=
          Finset.sum_comm
        have hNp : (Lf.card : ℚ) * p = 1 := by
          rw [hcardL, hp]
          field_simp
        have hmain : Lf.sum (fun u => Lf.sum (fun v => x u * stochEntry g u v)) =
            1 - D := by
          rw [Finset.sum_congr rfl hrow]
          have hsplit : Lf.sum (fun u => x u * (if (g.successors u).length = 0
              then (0 : ℚ) else 1)) =
              Lf.sum (fun u => x u - (if (g.successors u).length = 0 then x u else 0)) := by
            apply Finset.sum_congr rfl
            intro u _
            by_cases h : (g.successors u).length = 0
            · rw [if_pos h, if_pos h]; ring
            · rw [if_neg h, if_neg h]; ring
          rw [hsplit, Finset.sum_sub_distrib, hsumf, ← hDf]
        rw [hswap, hmain]
        have h1 : (Lf.card : ℚ) * (D * p) = D := by
          rw [← mul_assoc, mul_comm (Lf.card : ℚ) D, mul_assoc, hNp, mul_one]
        have h2 : (Lf.card : ℚ) * ((15 / 100 : ℚ) * p) = 15 / 100 := by
          rw [mul_comm ((15 : ℚ) / 100) p, ← mul_assoc, hNp, one_mul]
        rw [h1, h2]
    _ = 1 := by ring

theorem pagerankStep_isDist {g : DiGraph} (hwf : GraphWF g) (hne : g.nodeIds ≠ [])
    {x : String → ℚ} (hx : IsDist g x) : IsDist g (pagerankStep g x) := by
  constructor
  · intro u _
    exact pagerankStep_nonneg x hx.1 u
  · exact pagerankStep_sum hwf hne x hx.2

theorem pagerankLoop_isDist {g : DiGraph} (hwf : GraphWF g) (hne : g.nodeIds ≠ []) :
    ∀ (k : Nat) (x y : String → ℚ), IsDist g x → pagerankLoop g k x = some y →
      IsDist g y := by
  intro k
  induction k with
  | zero => intro x y _ h; simp [pagerankLoop] at h
  | succ k ih =>
    intro x y hx h
    simp only [pagerankLoop] at h
    by_cases hc : pagerankErr g x (pagerankStep g x) <
        (g.nodeIds.length : ℚ) * (1 / 1000000)
    · rw [if_pos hc] at h
      cases h
      exact pagerankStep_isDist hwf hne hx
    · rw [if_neg hc] at h
      exact ih (pagerankStep g x) y (pagerankStep_isDist hwf hne hx) h

theorem isDist_le_one {g : DiGraph} (hwf : GraphWF g) {x : String → ℚ}
    (hx : IsDist g x) {n : String} (hn : n ∈ g.nodeIds) : x n ≤ 1 := by
  have hnd := hwf.nodesNodup
  have hsumf : g.nodeIds.toFinset.sum x = 1 := by
    rw [← list_sum_eq_toFinset_sum hnd]
    exact hx.2
  rw [← hsumf]
  apply Finset.single_le_sum
  · intro u hu
    exact hx.1 u (List.mem_toFinset.1 hu)
  · exact List.mem_toFinset.2 hn

/-- On success, every PageRank value lies in `[0, 1]`: the power iteration
preserves the probability-distribution invariant of its uniform start
vector. -/
theorem pagerank_bound {g : DiGraph} (hwf : GraphWF g) {pr : String → ℚ}
    (h : pagerank g = some pr) (n : String) : 0 ≤ pr n ∧ pr n ≤ 1 := by
  unfold pagerank at h
  by_cases h0 : g.nodeIds.length == 0
  · rw [if_pos h0] at h
    cases h
    exact ⟨le_refl 0, by norm_num⟩
  · rw [if_neg h0] at h
    have hne : g.nodeIds ≠ [] := by
      intro hnil
      apply h0
      rw [hnil]
      rfl
    have hx0 : IsDist g (fun _ => 1 / (g.nodeIds.length : ℚ)) := by
      have hlen : g.nodeIds.length ≠ 0 := fun hc => hne (List.length_eq_zero.1 hc)
      have hNq : ((g.nodeIds.length : ℚ)) ≠ 0 := Nat.cast_ne_zero.2 hlen
      constructor
      · intro u _
        positivity
      · rw [List.map_const', List.sum_replicate, nsmul_eq_mul]
        field_simp
    cases hloop : pagerankLoop g 100 (fun _ => 1 / (g.nodeIds.length : ℚ)) with
    | none => rw [hloop] at h; cases h
    | some y =>
      rw [hloop] at h
      cases h
      have hy := pagerankLoop_isDist hwf hne 100 _ y hx0 hloop
      by_cases hc : g.nodeIds.contains n
      · have hmem : n ∈ g.nodeIds := by
          rw [← List.elem_iff]
          exact hc
        simp only [hc, if_pos]
        exact ⟨hy.1 n hmem, isDist_le_one hwf hy hmem⟩
      · simp only [hc, Bool.false_eq_true, if_false]
        exact ⟨le_refl 0, by norm_num⟩

/-- Every relevance score the analyzer computes lies in `[0, 1]`: direct
citations score exactly 1, indirect ones get a PageRank probability, the
dict default 0, or the exception fallback 0.5. -/
theorem calculate_relevance_score_bound {g : DiGraph} (hwf : GraphWF g)
    (law_node case_node : String) (b : Bool) :
    0 ≤ calculate_relevance_score g law_node case_node b ∧
      calculate_relevance_score g law_node case_node b ≤ 1 := by
  unfold calculate_relevance_score
  cases b with
  | true => norm_num
  | false =>
    simp only [Bool.false_eq_true, if_false]
    cases hpr : pagerank g with
    | none => norm_num
    | some pr => exact pagerank_bound hwf hpr case_node

/-! ## Bounded reachability (specification-side notions) -/

/-- Directed reachability within a hop bound: `DirReach g c v k` holds when
`v` can be reached from `c` by at most `k` edge traversals following edge
direction. This is the node criterion actually realised by
`nx.ego_graph(g, c, radius=k)` with its default `undirected=False`. -/
inductive DirReach (g : DiGraph) : String → String → Nat → Prop where
  | refl (u : String) (k : Nat) : DirReach g u u k
  | step {u v w : String} {k : Nat} (h : g.hasEdge u v = true)
      (hr : DirReach g v w k) : DirReach g u w (k + 1)

/-- Undirected reachability within a hop bound (the claim's wording:
edge traversals ignoring direction). -/
inductive UndirReach (g : DiGraph) : String → String → Nat → Prop where
  | refl (u : String) (k : Nat) : UndirReach g u u k
  | fwd {u v w : String} {k : Nat} (h : g.hasEdge u v = true)
      (hr : UndirReach g v w k) : UndirReach g u w (k + 1)
  | bwd {u v w : String} {k : Nat} (h : g.hasEdge v u = true)
      (hr : UndirReach g v w k) : UndirReach g u w (k + 1)

theorem DirReach.mono {g : DiGraph} {u v : String} {k : Nat}
    (h : DirReach g u v k) : DirReach g u v (k + 1) := by
  induction h with
  | refl u k => exact .refl u (k + 1)
  | step he _ ih => exact .step he ih

theorem DirReach.snoc {g : DiGraph} {u v w : String} {k : Nat}
    (h : DirReach g u v k) (he : g.hasEdge v w = true) : DirReach g u w (k + 1) := by
  induction h with
  | refl u k => exact .step he (.refl w k)
  | step h1 _ ih => exact .step h1 (ih he)

theorem reachSet_subset_succ (g : DiGraph) (c : String) (k : Nat) :
    reachSet g c k ⊆ reachSet g c (k + 1) := by
  intro v hv
  show v ∈ reachSet g c k ∪ _
  exact Finset.mem_union_left _ hv

theorem mem_reachSet_target {g : DiGraph} {c : String} {k : Nat}
    {u v : String} (hu : u ∈ reachSet g c k) (he : g.hasEdge u v = true) :
    v ∈ reachSet g c (k + 1) := by
  show v ∈ reachSet g c k ∪ _
  apply Finset.mem_union_right
  rw [List.mem_toFinset, List.mem_filterMap]
  rcases DiGraph.hasEdge_iff.1 he with ⟨e, hem, h1, h2⟩
  refine ⟨e, hem, ?_⟩
  rw [h1, if_pos hu, h2]

theorem reachSet_step_subset {g : DiGraph} {c m : String}
    (he : g.hasEdge c m = true) :
    ∀ k, reachSet g m k ⊆ reachSet g c (k + 1) := by
  intro k
  induction k with
  | zero =>
    intro v hv
    rw [show reachSet g m 0 = {m} from rfl, Finset.mem_singleton] at hv
    subst hv
    have hc : c ∈ reachSet g c 0 := by
      rw [show reachSet g c 0 = {c} from rfl]
      exact Finset.mem_singleton_self c
    exact mem_reachSet_target hc he
  | succ k ih =>
    intro v hv
    rcases Finset.mem_union.1 hv with h1 | h1
    · exact reachSet_subset_succ g c (k + 1) (ih h1)
    · rw [List.mem_toFinset, List.mem_filterMap] at h1
      rcases h1 with ⟨e, hem, hf⟩
      by_cases hsrc : e.1 ∈ reachSet g m k
      · rw [if_pos hsrc] at hf
        cases hf
        apply mem_reachSet_target (ih hsrc)
        exact DiGraph.hasEdge_iff.2 ⟨e, hem, rfl, rfl⟩
      · rw [if_neg hsrc] at hf
        cases hf

theorem dirReach_mem_reachSet {g : DiGraph} {c v : String} {k : Nat}
    (h : DirReach g c v k) : v ∈ reachSet g c k := by
  induction h with
  | refl u k =>
    induction k with
    | zero => exact Finset.mem_singleton_self u
    | succ k ih => exact reachSet_subset_succ g u k ih
  | step he _ ih => exact reachSet_step_subset he _ ih

theorem mem_reachSet_dirReach {g : DiGraph} {c : String} :
    ∀ {k : Nat} {v : String}, v ∈ reachSet g c k → DirReach g c v k := by
  intro k
  induction k with
  | zero =>
    intro v hv
    rw [show reachSet g c 0 = {c} from rfl, Finset.mem_singleton] at hv
    subst hv
    exact DirReach.refl _ 0
  | succ k ih =>
    intro v hv
    rcases Finset.mem_union.1 hv with h1 | h1
    · exact (ih h1).mono
    · rw [List.mem_toFinset, List.mem_filterMap] at h1
      rcases h1 with ⟨e, hem, hf⟩
      by_cases hsrc : e.1 ∈ reachSet g c k
      · rw [if_pos hsrc] at hf
        cases hf
        exact (ih hsrc).snoc (DiGraph.hasEdge_iff.2 ⟨e, hem, rfl, rfl⟩)
      · rw [if_neg hsrc] at hf
        cases hf

theorem mem_reachSet_iff {g : DiGraph} {c v : String} {k : Nat} :
    v ∈ reachSet g c k ↔ DirReach g c v k :=
  ⟨mem_reachSet_dirReach, dirReach_mem_reachSet⟩

theorem dirReach_mem_nodeIds {g : DiGraph} (hwf : GraphWF g) {c v : String} {k : Nat}
    (hc : c ∈ g.nodeIds) (h : DirReach g c v k) : v ∈ g.nodeIds := by
  induction h with
  | refl u k => exact hc
  | step he hr ih =>
    apply ih
    rcases DiGraph.hasEdge_iff.1 he with ⟨e, hem, _, h2⟩
    rw [← h2]
    exact hwf.tgtMem e hem

/-! ## Characterizing successful result entries -/

theorem getCaseDetail_some_elim {g : DiGraph} {c : String} {cd : CaseDetail}
    (h : getCaseDetail g c = some cd) :
    ∃ a, g.attrsOf c = some (some a) ∧ a.data = .ofCase cd := by
  unfold getCaseDetail at h
  cases ha : g.attrsOf c with
  | none => rw [ha] at h; cases h
  | some oa =>
    rw [ha] at h
    cases oa with
    | none => cases h
    | some a =>
      dsimp only at h
      cases hd : a.data with
      | ofLaw l => rw [hd] at h; cases h
      | ofCase c2 =>
        rw [hd] at h
        simp only [Option.some.injEq] at h
        exact ⟨a, rfl, by rw [hd, h]⟩

theorem getCaseDetail_node_id {g : DiGraph} (hwf : GraphWF g) {c : String}
    {cd : CaseDetail} (h : getCaseDetail g c = some cd) : c = "case_" ++ cd.case_id := by
  rcases getCaseDetail_some_elim h with ⟨a, ha, hd⟩
  have hmem := DiGraph.attrsOf_eq_some ha
  rcases hwf.attrsShape _ hmem a rfl with ⟨_, l, hl, _⟩ | ⟨_, c3, hc3, hid⟩
  · rw [hd] at hl; cases hl
  · rw [hd] at hc3
    cases hc3
    exact hid

theorem getLawDetail_some_elim {g : DiGraph} {n : String} {ld : LawDetail}
    (h : getLawDetail g n = some ld) :
    ∃ a, g.attrsOf n = some (some a) ∧ a.data = .ofLaw ld := by
  unfold getLawDetail at h
  cases ha : g.attrsOf n with
  | none => rw [ha] at h; cases h
  | some oa =>
    rw [ha] at h
    cases oa with
    | none => cases h
    | some a =>
      dsimp only at h
      cases hd : a.data with
      | ofCase c => rw [hd] at h; cases h
      | ofLaw l2 =>
        rw [hd] at h
        simp only [Option.some.injEq] at h
        exact ⟨a, rfl, by rw [hd, h]⟩

theorem getLawDetail_node_id {g : DiGraph} (hwf : GraphWF g) {n : String}
    {ld : LawDetail} (h : getLawDetail g n = some ld) : n = "law_" ++ ld.law_id := by
  rcases getLawDetail_some_elim h with ⟨a, ha, hd⟩
  have hmem := DiGraph.attrsOf_eq_some ha
  rcases hwf.attrsShape _ hmem a rfl with ⟨_, l3, hl3, hid⟩ | ⟨_, c3, hc3, _⟩
  · rw [hd] at hl3
    cases hl3
    exact hid
  · rw [hd] at hc3; cases hc3

theorem relatedEntry_some_elim {g : DiGraph} {law_node : String} {direct : List String}
    {c : String} {e : RelatedCase} (h : relatedEntry g law_node direct c = some e) :
    ∃ cd, getCaseDetail g c = some cd ∧
      e = ⟨cd.case_id, cd.case_name, cd.court_name, cd.decision_date,
        calculate_relevance_score g law_node c (direct.contains c),
        direct.contains c⟩ := by
  unfold relatedEntry at h
  cases hcd : getCaseDetail g c with
  | none => rw [hcd] at h; cases h
  | some cd =>
    rw [hcd] at h
    simp only [Option.some.injEq] at h
    exact ⟨cd, rfl, h.symm⟩

theorem relatedEntry_node_id {g : DiGraph} (hwf : GraphWF g) {law_node : String}
    {direct : List String} {c : String} {e : RelatedCase}
    (h : relatedEntry g law_node direct c = some e) : c = "case_" ++ e.case_id := by
  rcases relatedEntry_some_elim h with ⟨cd, hcd, he⟩
  rw [he]
  exact getCaseDetail_node_id hwf hcd

theorem citedLawEntry_some_elim {g : DiGraph} {n : String} {e : CitedLaw}
    (h : citedLawEntry g n = some e) :
    ∃ ld, getLawDetail g n = some ld ∧
      e = ⟨ld.law_id, ld.law_name, (g.predecessors n).length⟩ := by
  unfold citedLawEntry at h
  cases hld : getLawDetail g n with
  | none => rw [hld] at h; cases h
  | some ld =>
    rw [hld] at h
    simp only [Option.some.injEq] at h
    exact ⟨ld, rfl, h.symm⟩

theorem citedLawEntry_node_id {g : DiGraph} (hwf : GraphWF g) {n : String}
    {e : CitedLaw} (h : citedLawEntry g n = some e) : n = "law_" ++ e.law_id := by
  rcases citedLawEntry_some_elim h with ⟨ld, hld, he⟩
  rw [he]
  exact getLawDetail_node_id hwf hld

theorem find_related_cases_some_elim {g : DiGraph} {law_id : String}
    {enum : List String} {rs : List RelatedCase}
    (hnode : g.hasNode ("law_" ++ law_id) = true)
    (h : find_related_cases g law_id enum = some rs) :
    ∃ results, enum.mapM (relatedEntry g ("law_" ++ law_id)
        (directCases g ("law_" ++ law_id))) = some results ∧
      rs = pySortDesc (fun r => r.relevance_score) results := by
  unfold find_related_cases at h
  rw [if_pos hnode] at h
  dsimp only at h
  cases hm : enum.mapM (relatedEntry g ("law_" ++ law_id)
      (directCases g ("law_" ++ law_id))) with
  | none => rw [hm] at h; cases h
  | some results =>
    rw [hm] at h
    simp only [Option.some.injEq] at h
    exact ⟨results, rfl, h.symm⟩

theorem get_most_cited_laws_some_elim {g : DiGraph} {limit : Nat} {rs : List CitedLaw}
    (h : get_most_cited_laws g limit = some rs) :
    ∃ entries, (lawNodes g).mapM (citedLawEntry g) = some entries ∧
      rs = (pySortDesc (fun e => (e.citation_count : ℚ)) entries).take limit := by
  unfold get_most_cited_laws at h
  cases hm : (lawNodes g).mapM (citedLawEntry g) with
  | none => rw [hm] at h; cases h
  | some entries =>
    rw [hm] at h
    simp only [Option.some.injEq] at h
    exact ⟨entries, rfl, h.symm⟩

/-! ## Node inventory of built graphs -/

/-- Python truthiness of an optional string (`if ref.referenced_law_id:`):
`None` and the empty string are falsy. -/
def pyTruthy (o : Option String) : Bool :=
  match o with
  | some s => !(s == "")
  | none => false

/-- A reference record resolves against the supplied entities: whenever it
contributes an edge its case id names a supplied case, and each truthy
referenced law / case id names a supplied law / case. -/
def refResolves (laws : List LawDetail) (cases : List CaseDetail)
    (r : CaseReference) : Bool :=
  (if pyTruthy r.referenced_law_id || pyTruthy r.referenced_case_id
    then cases.any (fun c => c.case_id == r.case_id) else true) &&
  (match r.referenced_law_id with
    | some lid => (lid == "") || laws.any (fun l => l.law_id == lid)
    | none => true) &&
  (match r.referenced_case_id with
    | some cid => (cid == "") || cases.any (fun c => c.case_id == cid)
    | none => true)

theorem foldl_laws_nodeIds (laws : List LawDetail) (g : DiGraph)
    (habs : ∀ l ∈ laws, ("law_" ++ l.law_id) ∉ g.nodeIds)
    (hnd : (laws.map LawDetail.law_id).Nodup) :
    (laws.foldl (fun g law => g.addEntityNode ("law_" ++ law.law_id)
      ⟨"law", law.law_name, .ofLaw law⟩) g).nodeIds
      = g.nodeIds ++ laws.map (fun l => "law_" ++ l.law_id) := by
  induction laws generalizing g with
  | nil => simp
  | cons x xs ih =>
    rw [List.foldl_cons]
    have hx : ¬ g.hasNode ("law_" ++ x.law_id) = true := by
      rw [DiGraph.hasNode_iff_mem]
      exact habs x (List.mem_cons_self _ _)
    have hids : (g.addEntityNode ("law_" ++ x.law_id)
        ⟨"law", x.law_name, .ofLaw x⟩).nodeIds = g.nodeIds ++ ["law_" ++ x.law_id] := by
      rw [DiGraph.nodeIds_addEntityNode, if_neg hx]
    rw [List.map_cons] at hnd
    have hnd2 := List.nodup_cons.1 hnd
    rw [ih _ ?_ hnd2.2, hids, List.append_assoc]
    · rfl
    · intro l hl
      rw [hids, List.mem_append]
      rintro (h1 | h1)
      · exact habs l (List.mem_cons_of_mem _ hl) h1
      · rw [List.mem_singleton] at h1
        have : l.law_id = x.law_id := string_append_left_cancel h1
        apply hnd2.1
        rw [← this]
        exact List.mem_map_of_mem _ hl

theorem foldl_cases_nodeIds (cases : List CaseDetail) (g : DiGraph)
    (habs : ∀ c ∈ cases, ("case_" ++ c.case_id) ∉ g.nodeIds)
    (hnd : (cases.map CaseDetail.case_id).Nodup) :
    (cases.foldl (fun g c => g.addEntityNode ("case_" ++ c.case_id)
      ⟨"case", c.case_name, .ofCase c⟩) g).nodeIds
      = g.nodeIds ++ cases.map (fun c => "case_" ++ c.case_id) := by
  induction cases generalizing g with
  | nil => simp
  | cons x xs ih =>
    rw [List.foldl_cons]
    have hx : ¬ g.hasNode ("case_" ++ x.case_id) = true := by
      rw [DiGraph.hasNode_iff_mem]
      exact habs x (List.mem_cons_self _ _)
    have hids : (g.addEntityNode ("case_" ++ x.case_id)
        ⟨"case", x.case_name, .ofCase x⟩).nodeIds = g.nodeIds ++ ["case_" ++ x.case_id] := by
      rw [DiGraph.nodeIds_addEntityNode, if_neg hx]
    rw [List.map_cons] at hnd
    have hnd2 := List.nodup_cons.1 hnd
    rw [ih _ ?_ hnd2.2, hids, List.append_assoc]
    · rfl
    · intro c hc
      rw [hids, List.mem_append]
      rintro (h1 | h1)
      · exact habs c (List.mem_cons_of_mem _ hc) h1
      · rw [List.mem_singleton] at h1
        have : c.case_id = x.case_id := string_append_left_cancel h1
        apply hnd2.1
        rw [← this]
        exact List.mem_map_of_mem _ hc

theorem addEdge_nodeIds_of_present {g : DiGraph} {u v : String} (a : EdgeAttrs)
    (hu : g.hasNode u = true) (hv : g.hasNode v = true) :
    (g.addEdge u v a).nodeIds = g.nodeIds := by
  have h1 : g.ensureNode u = g := by
    unfold DiGraph.ensureNode
    rw [if_pos hu]
  have h2 : (g.ensureNode u).ensureNode v = g := by
    rw [h1]
    unfold DiGraph.ensureNode
    rw [if_pos hv]
  rw [DiGraph.nodeIds_addEdge, h2]

theorem foldl_refs_nodeIds (refs : List CaseReference) (g : DiGraph)
    (hres : ∀ r ∈ refs,
      ((pyTruthy r.referenced_law_id || pyTruthy r.referenced_case_id) = true →
        ("case_" ++ r.case_id) ∈ g.nodeIds) ∧
      (∀ lid, r.referenced_law_id = some lid → (lid == "") = false →
        ("law_" ++ lid) ∈ g.nodeIds) ∧
      (∀ cid, r.referenced_case_id = some cid → (cid == "") = false →
        ("case_" ++ cid) ∈ g.nodeIds)) :
    (refs.foldl (fun g r =>
      let g := match r.referenced_law_id with
        | some lid =>
          if lid == "" then g
          else g.addEdge ("case_" ++ r.case_id) ("law_" ++ lid) ⟨"cites_law", r.context⟩
        | none => g
      match r.referenced_case_id with
        | some cid =>
          if cid == "" then g
          else g.addEdge ("case_" ++ r.case_id) ("case_" ++ cid) ⟨"cites_case", r.context⟩
        | none => g) g).nodeIds = g.nodeIds := by
  induction refs generalizing g with
  | nil => rfl
  | cons r rest ih =>
    rw [List.foldl_cons]
    rcases hres r (List.mem_cons_self _ _) with ⟨hsrc, hlaw, hcase⟩
    have hstep1 : (match r.referenced_law_id with
        | some lid =>
          if lid == "" then g
          else g.addEdge ("case_" ++ r.case_id) ("law_" ++ lid) ⟨"cites_law", r.context⟩
        | none => g).nodeIds = g.nodeIds := by
      cases hl : r.referenced_law_id with
      | none => rfl
      | some lid =>
        show (if lid == "" then g
          else g.addEdge ("case_" ++ r.case_id) ("law_" ++ lid)
            ⟨"cites_law", r.context⟩).nodeIds = g.nodeIds
        cases he : (lid == "") with
        | true => rw [if_pos rfl]
        | false =>
          rw [if_neg Bool.false_ne_true]
          apply addEdge_nodeIds_of_present
          · rw [DiGraph.hasNode_iff_mem]
            apply hsrc
            rw [show pyTruthy r.referenced_law_id = true by rw [hl]; simp [pyTruthy, he]]
            rfl
          · rw [DiGraph.hasNode_iff_mem]
            exact hlaw lid hl he
    have hstep2 : ∀ g2 : DiGraph, g2.nodeIds = g.nodeIds →
        (match r.referenced_case_id with
        | some cid =>
          if cid == "" then g2
          else g2.addEdge ("case_" ++ r.case_id) ("case_" ++ cid) ⟨"cites_case", r.context⟩
        | none => g2).nodeIds = g.nodeIds := by
      intro g2 hg2
      cases hc : r.referenced_case_id with
      | none => exact hg2
      | some cid =>
        show (if cid == "" then g2
          else g2.addEdge ("case_" ++ r.case_id) ("case_" ++ cid)
            ⟨"cites_case", r.context⟩).nodeIds = g.nodeIds
        cases he : (cid == "") with
        | true => rw [if_pos rfl]; exact hg2
        | false =>
          rw [if_neg Bool.false_ne_true]
          rw [addEdge_nodeIds_of_present]
          · exact hg2
          · rw [DiGraph.hasNode_iff_mem, hg2]
            apply hsrc
            rw [show pyTruthy r.referenced_case_id = true by rw [hc]; simp [pyTruthy, he]]
            simp
          · rw [DiGraph.hasNode_iff_mem, hg2]
            exact hcase cid hc he
    have hfg : ((fun (g : DiGraph) (r : CaseReference) =>
        let g := match r.referenced_law_id with
          | some lid =>
            if lid == "" then g
            else g.addEdge ("case_" ++ r.case_id) ("law_" ++ lid) ⟨"cites_law", r.context⟩
          | none => g
        match r.referenced_case_id with
          | some cid =>
            if cid == "" then g
            else g.addEdge ("case_" ++ r.case_id) ("case_" ++ cid) ⟨"cites_case", r.context⟩
          | none => g) g r).nodeIds = g.nodeIds := hstep2 _ hstep1
    rw [ih _ ?_]
    · exact hfg
    · intro r2 hr2
      rcases hres r2 (List.mem_cons_of_mem _ hr2) with ⟨h1, h2, h3⟩
      rw [hfg]
      exact ⟨h1, h2, h3⟩

/-- When entity ids are unique and every reference resolves, the node list
of the built graph is exactly the law ids followed by the case ids. -/
theorem build_nodeIds (laws : List LawDetail) (cases : List CaseDetail)
    (refs : List CaseReference)
    (hlnd : (laws.map LawDetail.law_id).Nodup)
    (hcnd : (cases.map CaseDetail.case_id).Nodup)
    (hres : ∀ r ∈ refs, refResolves laws cases r = true) :
    (build_citation_graph laws cases refs).nodeIds =
      laws.map (fun l => "law_" ++ l.law_id) ++
        cases.map (fun c => "case_" ++ c.case_id) := by
  unfold build_citation_graph
  have h1 : (laws.foldl (fun g law => g.addEntityNode ("law_" ++ law.law_id)
      ⟨"law", law.law_name, .ofLaw law⟩) DiGraph.empty).nodeIds =
      laws.map (fun l => "law_" ++ l.law_id) := by
    rw [foldl_laws_nodeIds laws DiGraph.empty ?_ hlnd]
    · rfl
    · intro l _ hmem
      cases hmem
  have h2 : ((cases.foldl (fun g c => g.addEntityNode ("case_" ++ c.case_id)
      ⟨"case", c.case_name, .ofCase c⟩)
      (laws.foldl (fun g law => g.addEntityNode ("law_" ++ law.law_id)
        ⟨"law", law.law_name, .ofLaw law⟩) DiGraph.empty))).nodeIds =
      laws.map (fun l => "law_" ++ l.law_id) ++
        cases.map (fun c => "case_" ++ c.case_id) := by
    rw [foldl_cases_nodeIds cases _ ?_ hcnd, h1]
    intro c _ hmem
    rw [h1] at hmem
    rcases List.mem_map.1 hmem with ⟨l, _, hl⟩
    exact law_append_ne_case_append l.law_id c.case_id hl
  rw [foldl_refs_nodeIds refs _ ?_]
  · exact h2
  · intro r hr
    have hok := hres r hr
    unfold refResolves at hok
    simp only [Bool.and_eq_true] at hok
    rcases hok with ⟨⟨hsrc, hlaw⟩, hcase⟩
    refine ⟨?_, ?_, ?_⟩
    · intro htruthy
      rw [if_pos htruthy] at hsrc
      rcases List.any_eq_true.1 hsrc with ⟨c, hc, hcid⟩
      rw [h2, List.mem_append]
      right
      rw [List.mem_map]
      refine ⟨c, hc, ?_⟩
      rw [beq_iff_eq] at hcid
      rw [hcid]
    · intro lid hlid hne
      rw [hlid] at hlaw
      simp only [Bool.or_eq_true] at hlaw
      rcases hlaw with h | h
      · rw [hne] at h; cases h
      · rcases List.any_eq_true.1 h with ⟨l, hl, hlid2⟩
        rw [h2, List.mem_append]
        left
        rw [List.mem_map]
        refine ⟨l, hl, ?_⟩
        rw [beq_iff_eq] at hlid2
        rw [hlid2]
    · intro cid hcid hne
      rw [hcid] at hcase
      simp only [Bool.or_eq_true] at hcase
      rcases hcase with h | h
      · rw [hne] at h; cases h
      · rcases List.any_eq_true.1 h with ⟨c, hc, hcid2⟩
        rw [h2, List.mem_append]
        right
        rw [List.mem_map]
        refine ⟨c, hc, ?_⟩
        rw [beq_iff_eq] at hcid2
        rw [hcid2]

/-! ## Further support lemmas for the claims -/

instance (g : DiGraph) (law_node : String) (enum : List String) :
    Decidable (validEnum g law_node enum) := by
  unfold validEnum
  infer_instance

theorem forall2_mem_left {α β : Type} {R : α → β → Prop} :
    ∀ {l : List α} {l' : List β}, List.Forall₂ R l l' → ∀ a ∈ l, ∃ b ∈ l', R a b := by
  intro l l' h
  induction h with
  | nil => intro a ha; cases ha
  | cons hab _ ih =>
    intro a ha
    rcases List.mem_cons.1 ha with h1 | h1
    · subst h1; exact ⟨_, List.mem_cons_self _ _, hab⟩
    · rcases ih a h1 with ⟨b, hb, hr⟩
      exact ⟨b, List.mem_cons_of_mem _ hb, hr⟩

theorem mapM_some_of_forall {α β : Type} (f : α → Option β) :
    ∀ (l : List α), (∀ x ∈ l, (f x).isSome) → ∃ res, l.mapM f = some res := by
  intro l
  induction l with
  | nil => intro _; exact ⟨[], rfl⟩
  | cons x xs ih =>
    intro h
    rcases Option.isSome_iff_exists.1 (h x (List.mem_cons_self _ _)) with ⟨b, hb⟩
    rcases ih (fun y hy => h y (List.mem_cons_of_mem _ hy)) with ⟨res, hres⟩
    refine ⟨b :: res, ?_⟩
    apply mapM_option_eq_some.2
    exact List.Forall₂.cons hb (mapM_option_eq_some.1 hres)

/-- The `isDirect = false` entries of the (pre-sort) result list are exactly
the enumerated case nodes outside the direct list, recovered through their
stored case ids. -/
theorem results_filter_map {g : DiGraph} (hwf : GraphWF g) {law_node : String}
    {direct : List String} :
    ∀ {enum : List String} {results : List RelatedCase},
    List.Forall₂ (fun c e => relatedEntry g law_node direct c = some e) enum results →
    (results.filter (fun e => !e.is_direct_citation)).map (fun e => "case_" ++ e.case_id)
      = enum.filter (fun c => !(direct.contains c)) := by
  intro enum results h
  induction h with
  | nil => rfl
  | @cons c e enum2 results2 hce _ ih =>
    have hid : c = "case_" ++ e.case_id := relatedEntry_node_id hwf hce
    rcases relatedEntry_some_elim hce with ⟨cd, _, he⟩
    have hdir : e.is_direct_citation = direct.contains c := by rw [he]
    rw [List.filter_cons, List.filter_cons]
    cases hb : direct.contains c with
    | true =>
      rw [hdir, hb]
      simp only [Bool.not_true, Bool.false_eq_true, if_false, ih]
    | false =>
      rw [hdir, hb]
      simp only [Bool.not_false, if_true, List.map_cons, ih, hid]

/-- Specification-side indirect set, following C4's wording: for every
direct case, the other laws it cites (the original law excluded); for each
such co-cited law, its predecessor cases; union everything. -/
def specCoCitedCases (g : DiGraph) (law_node : String) : Finset String :=
  ((directCases g law_node).flatMap (fun c =>
    ((otherLaws g c).filter (fun l => l ≠ law_node)).flatMap
      (fun l => g.predecessors l))).toFinset

/-- Excluding or keeping the original law in the co-citation union makes no
difference once the direct set is subtracted: the original law only
contributes its own predecessors, which are exactly the direct set. -/
theorem indirect_sdiff_spec (g : DiGraph) (law_node : String) :
    indirectCases g law_node \ (directCases g law_node).toFinset =
      specCoCitedCases g law_node \ (directCases g law_node).toFinset := by
  ext n
  simp only [indirectCases, specCoCitedCases, Finset.mem_sdiff, List.mem_toFinset,
    List.mem_flatMap, List.mem_filter]
  constructor
  · rintro ⟨⟨c, hc, l, hl, hn⟩, hnd⟩
    by_cases hlaw : l = law_node
    · exfalso
      apply hnd
      rw [hlaw] at hn
      exact hn
    · exact ⟨⟨c, hc, l, ⟨hl, by simpa using hlaw⟩, hn⟩, hnd⟩
  · rintro ⟨⟨c, hc, l, ⟨hl, _⟩, hn⟩, hnd⟩
    exact ⟨⟨c, hc, l, hl, hn⟩, hnd⟩

theorem allCases_sdiff_direct (g : DiGraph) (law_node : String) :
    allCases g law_node \ (directCases g law_node).toFinset =
      indirectCases g law_node \ (directCases g law_node).toFinset := by
  ext n
  simp only [allCases, Finset.mem_sdiff, Finset.mem_union]
  tauto

/-- The node ids serialized by `visualize_relationships` are exactly the
traversed node list. -/
theorem visNodes_map_id {g : DiGraph} {center : String} :
    ∀ {ns : List String} {vnodes : List VisNode},
    List.Forall₂ (fun n vn => (match g.attrsOf n with
      | some (some a) => some (⟨n, a.type, a.name, n == center⟩ : VisNode)
      | _ => none) = some vn) ns vnodes →
    vnodes.map VisNode.id = ns := by
  intro ns vnodes h
  induction h with
  | nil => rfl
  | @cons n vn ns2 vnodes2 hnv _ ih =>
    have hid : vn.id = n := by
      cases ha : g.attrsOf n with
      | none => rw [ha] at hnv; cases hnv
      | some oa =>
        rw [ha] at hnv
        cases oa with
        | none => cases hnv
        | some a =>
          dsimp only at hnv
          simp only [Option.some.injEq] at hnv
          rw [← hnv]
    rw [List.map_cons, hid, ih]

/-! ## Concrete fixtures (used by witnesses and counterexamples) -/

/-- Fixture law. -/
def lawL1 : LawDetail := ⟨"L1", "Civil Code"⟩

/-- Fixture case citing `L1`. -/
def caseC1 : CaseDetail := ⟨"C1", "Case One", "Court A", "2020-01-01"⟩

/-- Fixture case citing `L1`. -/
def caseC2 : CaseDetail := ⟨"C2", "Case Two", "Court B", "2020-02-02"⟩

/-- Fixture case citing only the case `C1`. -/
def caseC3 : CaseDetail := ⟨"C3", "Case Three", "Court C", "2020-03-03"⟩

/-- The spec's concrete scenario: `C1` and `C2` cite `L1`, `C3` cites `C1`. -/
def refsSpec : List CaseReference :=
  [⟨"C1", some "L1", none, none⟩, ⟨"C2", some "L1", none, none⟩,
   ⟨"C3", none, some "C1", none⟩]

/-- Graph of the spec's concrete scenario. -/
def gSpec : DiGraph := build_citation_graph [lawL1] [caseC1, caseC2, caseC3] refsSpec

/-- Two direct citers of the same law, for tie-order experiments. -/
def gTie : DiGraph := build_citation_graph [lawL1] [caseC1, caseC2]
  [⟨"C1", some "L1", none, none⟩, ⟨"C2", some "L1", none, none⟩]

/-- One isolated law, no cases, no references. -/
def gIso : DiGraph := build_citation_graph [lawL1] [] []

/-- A single case citing a single law, both entity lists empty: the
reference does not resolve, so `add_edge` fabricates both endpoint nodes
with empty attribute dicts. -/
def gDangling : DiGraph := build_citation_graph [] [] [⟨"c1", some "l1", none, none⟩]

/-! ## Claim C1 -/

/-- C1 is false as stated: the node count of a built graph is `N + M` only
when every reference resolves against the supplied entities. Here 0 laws,
0 cases and one reference record produce a 2-node graph (networkx
`add_edge` inserts missing endpoints), so `nodeCount = 2 ≠ 0 + 0`. -/
theorem C1_counterexample :
    (build_citation_graph [] [] [⟨"c1", some "l1", none, none⟩]).nodes.length = 2 ∧
      (2 : Nat) ≠ 0 + 0 := by
  constructor
  · rfl
  · decide

/-- C1 (amended): when the law ids are distinct, the case ids are distinct,
and every reference record's ids resolve to supplied entities, the built
graph has exactly `N + M` nodes, however many reference records there are
and regardless of their content otherwise (isolated nodes included). -/
theorem C1_node_count (laws : List LawDetail) (cases : List CaseDetail)
    (refs : List CaseReference)
    (hlnd : (laws.map LawDetail.law_id).Nodup)
    (hcnd : (cases.map CaseDetail.case_id).Nodup)
    (hres : ∀ r ∈ refs, refResolves laws cases r = true) :
    (build_citation_graph laws cases refs).nodes.length =
      laws.length + cases.length := by
  have h := build_nodeIds laws cases refs hlnd hcnd hres
  have hlen : (build_citation_graph laws cases refs).nodes.length =
      (build_citation_graph laws cases refs).nodeIds.length :=
    (List.length_map _ _).symm
  rw [hlen, h, List.length_append, List.length_map, List.length_map]

/-- C1 witness: the spec scenario (1 law, 3 cases, 3 resolving references)
yields a 4-node graph. -/
theorem C1_node_count_witness :
    (build_citation_graph [lawL1] [caseC1, caseC2, caseC3] refsSpec).nodes.length =
      1 + 3 :=
  C1_node_count [lawL1] [caseC1, caseC2, caseC3] refsSpec
    (by decide) (by decide) (by decide)

/-! ## Claim C3 -/

/-- C3 is false as stated for reference records whose case id does not
appear in the case entity list: the edge's source node exists (networkx
auto-inserts it) but carries an empty attribute dict, hence no `type`
attribute at all — it is not a node "whose kind is Case". -/
theorem C3_counterexample :
    gDangling.edges.map (fun e => (e.1, e.2.1)) = [("case_c1", "law_l1")] ∧
      gDangling.attrsOf "case_c1" = some none := by
  constructor
  · decide
  · decide

/-- C3 (amended): in every built graph every edge's source id is a node of
the graph and lives in the `case_` namespace (a law node is never the
source of any edge); whenever that node carries attributes at all, its
kind is Case with a case payload. -/
theorem C3_edge_sources (laws : List LawDetail) (cases : List CaseDetail)
    (refs : List CaseReference) {g : DiGraph}
    (hg : g = build_citation_graph laws cases refs) :
    ∀ e ∈ g.edges, e.1 ∈ g.nodeIds ∧ pyStartsWith e.1 "case_" = true ∧
      ∀ a, g.attrsOf e.1 = some (some a) →
        a.type = "case" ∧ ∃ c, a.data = EntityData.ofCase c := by
  have hwf : GraphWF g := by rw [hg]; exact build_graphWF laws cases refs
  intro e he
  refine ⟨hwf.srcMem e he, hwf.srcCase e he, ?_⟩
  intro a ha
  have hmem := DiGraph.attrsOf_eq_some ha
  rcases hwf.attrsShape _ hmem a rfl with ⟨_, l, _, hid⟩ | ⟨htype, c, hdata, _⟩
  · exfalso
    have hcase := hwf.srcCase e he
    rw [hid] at hcase
    rw [pyStartsWith_law_append_case] at hcase
    cases hcase
  · exact ⟨htype, c, hdata⟩

/-- C3 witness: the `C1 cites L1` edge of the spec scenario has a present,
`case_`-prefixed source whose stored kind is Case. -/
theorem C3_edge_sources_witness :
    ("case_C1", "law_L1", (⟨"cites_law", none⟩ : EdgeAttrs)) ∈ gSpec.edges ∧
      "case_C1" ∈ gSpec.nodeIds ∧ pyStartsWith "case_C1" "case_" = true ∧
      (⟨"case", "Case One", EntityData.ofCase caseC1⟩ : NodeAttrs).type = "case" := by
  have hmem : ("case_C1", "law_L1", (⟨"cites_law", none⟩ : EdgeAttrs)) ∈ gSpec.edges := by
    decide
  have h := C3_edge_sources [lawL1] [caseC1, caseC2, caseC3] refsSpec rfl _ hmem
  exact ⟨hmem, h.1, h.2.1, (h.2.2 _ (by decide)).1⟩

/-! ## Claim C8 -/

/-- C8: `find_related_cases` returns the empty list, raising nothing, both
for a law id whose node is absent from the graph and for a present law
node with no citing cases (no predecessors). -/
theorem C8_empty_results (g : DiGraph) (law_id : String) :
    (g.hasNode ("law_" ++ law_id) = false →
      ∀ enum, find_related_cases g law_id enum = some []) ∧
    (g.hasNode ("law_" ++ law_id) = true →
      g.predecessors ("law_" ++ law_id) = [] →
      ∀ enum, validEnum g ("law_" ++ law_id) enum →
        find_related_cases g law_id enum = some []) := by
  constructor
  · intro h enum
    unfold find_related_cases
    dsimp only
    rw [h, if_neg Bool.false_ne_true]
  · intro h hpred enum henum
    have hempty : allCases g ("law_" ++ law_id) = ∅ := by
      unfold allCases indirectCases directCases
      rw [hpred]
      rfl
    have henil : enum = [] := by
      rcases henum with ⟨_, h2⟩
      rw [hempty] at h2
      exact (List.toFinset_eq_empty_iff enum).1 h2
    subst henil
    unfold find_related_cases
    dsimp only
    rw [if_pos h]
    rfl

/-- C8 witness: on a graph with one isolated law, an unknown law id and
the citation-free law `L1` both yield the silent empty list. -/
theorem C8_empty_results_witness :
    find_related_cases gIso "ZZ" ["case_x"] = some [] ∧
      find_related_cases gIso "L1" [] = some [] := by
  constructor
  · exact (C8_empty_results gIso "ZZ").1 (by decide) ["case_x"]
  · exact (C8_empty_results gIso "L1").2 (by decide) (by decide) [] (by decide)

/-! ## Claim C9 -/

/-- C9: `visualize_relationships` on an absent center returns (never
raises) the in-band not-found payload — the `error` marker together with
empty node and edge lists and the composed center id — while any
successfully returned view of a present center carries no error marker,
so the two cases are distinguishable. -/
theorem C9_not_found (g : DiGraph) (center_id center_type : String) (depth : Nat)
    (hkind : center_type = "law" ∨ center_type = "case") :
    (g.hasNode (center_type ++ "_" ++ center_id) = false →
      visualize_relationships g center_id center_type depth =
        some ⟨[], [], center_type ++ "_" ++ center_id, some "Node not found"⟩) ∧
    (g.hasNode (center_type ++ "_" ++ center_id) = true →
      ∀ res, visualize_relationships g center_id center_type depth = some res →
        res.error = none) := by
  constructor
  · intro h
    unfold visualize_relationships
    dsimp only
    rw [h, if_neg Bool.false_ne_true]
  · intro h res hres
    unfold visualize_relationships at hres
    dsimp only at hres
    rw [if_pos h] at hres
    cases hm : (g.nodeIds.filter
        (fun n => n ∈ reachSet g (center_type ++ "_" ++ center_id) depth)).mapM
        (fun n => match g.attrsOf n with
          | some (some a) =>
            some (⟨n, a.type, a.name, n == center_type ++ "_" ++ center_id⟩ : VisNode)
          | _ => none) with
    | none => rw [hm] at hres; cases hres
    | some vnodes =>
      rw [hm] at hres
      simp only [Option.some.injEq] at hres
      rw [← hres]

/-- C9 witness: absent center `law_NOPE` gives exactly the not-found
payload; the present center `law_L1` returns a view with no error key. -/
theorem C9_not_found_witness :
    visualize_relationships gSpec "NOPE" "law" 1 =
      some ⟨[], [], "law_NOPE", some "Node not found"⟩ ∧
      (⟨[⟨"law_L1", "law", "Civil Code", true⟩], [], "law_L1", none⟩ :
        VisResult).error = none := by
  constructor
  · exact (C9_not_found gSpec "NOPE" "law" 1 (Or.inl rfl)).1 (by decide)
  · exact (C9_not_found gSpec "L1" "law" 1 (Or.inl rfl)).2 (by decide) _ (by decide)

/-! ## Claim C10 -/

/-- C10: a reference record with an unresolvable law id makes `build`
fabricate attribute-less nodes for both endpoints; `get_most_cited_laws`
then raises a `KeyError` (modelled `none`) when reading the law node's
stored record, and `find_related_cases` on that law raises likewise when
reading the dangling citing case's record — instead of returning result
lists. -/
theorem C10_dangling_raises :
    gDangling.attrsOf "case_c1" = some none ∧
      gDangling.attrsOf "law_l1" = some none ∧
      get_most_cited_laws gDangling 10 = none ∧
      validEnum gDangling "law_l1" ["case_c1"] ∧
      find_related_cases gDangling "l1" ["case_c1"] = none := by
  refine ⟨by decide, by decide, by decide, by decide, by decide⟩

theorem contains_iff_mem (l : List String) (n : String) :
    l.contains n = true ↔ n ∈ l := by
  simp [List.elem_iff]

/-! ## Claim C4 -/

/-- C4: for a law node in a built graph, the `isDirect = false` entries of
a successful `find_related_cases` result are exactly the cases reachable
through the shared-law co-citation bridge: the union, over every direct
case and every other law it cites (the original law excluded), of that
law's predecessor cases, minus the direct set. In particular a case citing
only another case and no shared law never appears. (The code does not
exclude the original law from `other_laws`, but the original law only
contributes the direct set, which is subtracted anyway.) -/
theorem C4_indirect_set (laws : List LawDetail) (cases : List CaseDetail)
    (refs : List CaseReference) (law_id : String) (enum : List String)
    {g : DiGraph} {rs : List RelatedCase}
    (hg : g = build_citation_graph laws cases refs)
    (hnode : g.hasNode ("law_" ++ law_id) = true)
    (henum : validEnum g ("law_" ++ law_id) enum)
    (hsome : find_related_cases g law_id enum = some rs) :
    ((rs.filter (fun e => !e.is_direct_citation)).map
        (fun e => "case_" ++ e.case_id)).toFinset =
      specCoCitedCases g ("law_" ++ law_id) \
        (directCases g ("law_" ++ law_id)).toFinset := by
  have hwf : GraphWF g := by rw [hg]; exact build_graphWF laws cases refs
  rcases find_related_cases_some_elim hnode hsome with ⟨results, hm, hsort⟩
  have hperm : List.Perm rs results := by
    rw [hsort]
    exact pySortDesc_perm _ results
  have hpermfm : List.Perm
      ((rs.filter (fun e => !e.is_direct_citation)).map (fun e => "case_" ++ e.case_id))
      ((results.filter (fun e => !e.is_direct_citation)).map
        (fun e => "case_" ++ e.case_id)) :=
    (hperm.filter _).map _
  rw [List.toFinset_eq_of_perm _ _ hpermfm]
  have hF2 := mapM_option_eq_some.1 hm
  rw [results_filter_map hwf hF2]
  rcases henum with ⟨_, henum2⟩
  rw [← indirect_sdiff_spec, ← allCases_sdiff_direct]
  ext n
  rw [List.mem_toFinset, List.mem_filter, Finset.mem_sdiff, List.mem_toFinset]
  constructor
  · rintro ⟨h1, h2⟩
    constructor
    · rw [← henum2]
      exact List.mem_toFinset.2 h1
    · intro hmem
      rw [Bool.not_eq_true', Bool.eq_false_iff] at h2
      exact h2 ((contains_iff_mem _ _).2 hmem)
  · rintro ⟨h1, h2⟩
    constructor
    · rw [← henum2] at h1
      exact List.mem_toFinset.1 h1
    · rw [Bool.not_eq_true', Bool.eq_false_iff]
      intro hc
      exact h2 ((contains_iff_mem _ _).1 hc)

/-- C4 witness: the spec's own scenario — `C3` cites only the case `C1`,
and `C1` co-cites no law besides `L1`, so the indirect set is empty. -/
theorem C4_indirect_set_witness :
    ((((find_related_cases gSpec "L1" ["case_C1", "case_C2"]).getD []).filter
        (fun e => !e.is_direct_citation)).map
        (fun e => "case_" ++ e.case_id)).toFinset =
      specCoCitedCases gSpec "law_L1" \ (directCases gSpec "law_L1").toFinset := by
  have h := C4_indirect_set [lawL1] [caseC1, caseC2, caseC3] refsSpec "L1"
    ["case_C1", "case_C2"] rfl (by decide) (by decide)
    (show find_related_cases gSpec "L1" ["case_C1", "case_C2"] =
      some [⟨"C1", "Case One", "Court A", "2020-01-01", 1, true⟩,
        ⟨"C2", "Case Two", "Court B", "2020-02-02", 1, true⟩] by decide)
  exact h

/-! ## Claim C5 -/

/-- C5: in every successful `find_related_cases` result on a built graph,
every direct entry scores exactly 1.0 with `isDirect = true`, and every
other entry has `isDirect = false` and a relevance score inside `[0, 1]`
(a PageRank probability, the dict default 0, or the exception fallback
0.5). -/
theorem C5_score_range (laws : List LawDetail) (cases : List CaseDetail)
    (refs : List CaseReference) (law_id : String) (enum : List String)
    {g : DiGraph} {rs : List RelatedCase}
    (hg : g = build_citation_graph laws cases refs)
    (hsome : find_related_cases g law_id enum = some rs) :
    ∀ e ∈ rs, (e.is_direct_citation = true → e.relevance_score = 1) ∧
      (e.is_direct_citation = false →
        0 ≤ e.relevance_score ∧ e.relevance_score ≤ 1) := by
  have hwf : GraphWF g := by rw [hg]; exact build_graphWF laws cases refs
  by_cases hnode : g.hasNode ("law_" ++ law_id) = true
  · rcases find_related_cases_some_elim hnode hsome with ⟨results, hm, hsort⟩
    intro e he
    have hmem : e ∈ results := by
      rw [hsort] at he
      exact (pySortDesc_perm _ results).mem_iff.1 he
    rcases forall2_mem_right (mapM_option_eq_some.1 hm) e hmem with ⟨c, _, hce⟩
    rcases relatedEntry_some_elim hce with ⟨cd, _, hestruct⟩
    constructor
    · intro hdir
      rw [hestruct]
      rw [hestruct] at hdir
      simp only at hdir
      unfold calculate_relevance_score
      simp only [hdir, if_true]
    · intro hind
      rw [hestruct]
      rw [hestruct] at hind
      simp only at hind
      simp only [hind]
      exact calculate_relevance_score_bound hwf _ _ false
  · unfold find_related_cases at hsome
    dsimp only at hsome
    rw [if_neg hnode] at hsome
    simp only [Option.some.injEq] at hsome
    rw [← hsome]
    intro e he
    cases he

/-- C5 witness: in the spec scenario both returned entries are direct with
score exactly 1. -/
theorem C5_score_range_witness :
    ((⟨"C1", "Case One", "Court A", "2020-01-01", 1, true⟩ :
        RelatedCase).is_direct_citation = true →
      (⟨"C1", "Case One", "Court A", "2020-01-01", 1, true⟩ :
        RelatedCase).relevance_score = 1) ∧
    ((⟨"C1", "Case One", "Court A", "2020-01-01", 1, true⟩ :
        RelatedCase).is_direct_citation = false →
      0 ≤ (⟨"C1", "Case One", "Court A", "2020-01-01", 1, true⟩ :
        RelatedCase).relevance_score ∧
      (⟨"C1", "Case One", "Court A", "2020-01-01", 1, true⟩ :
        RelatedCase).relevance_score ≤ 1) := by
  have h := C5_score_range [lawL1] [caseC1, caseC2, caseC3] refsSpec "L1"
    ["case_C1", "case_C2"] rfl
    (show find_related_cases gSpec "L1" ["case_C1", "case_C2"] =
      some [⟨"C1", "Case One", "Court A", "2020-01-01", 1, true⟩,
        ⟨"C2", "Case Two", "Court B", "2020-02-02", 1, true⟩] by decide)
  exact h _ (by decide)

/-! ## Claim C6 -/

/-- C6 is false as stated: the pre-sort order of the result entries is the
iteration order of the Python set `all_cases`, which for string elements
depends on hash randomization and is not fixed by the graph. Here two
valid iteration orders of the same two-element set produce two different
result lists for equal-score (tied) direct entries, so ties are NOT broken
by insertion/discovery order (`C1` was discovered before `C2`) and the
order is not deterministic given the graph alone. -/
theorem C6_counterexample :
    validEnum gTie "law_L1" ["case_C1", "case_C2"] ∧
      validEnum gTie "law_L1" ["case_C2", "case_C1"] ∧
      find_related_cases gTie "L1" ["case_C1", "case_C2"] =
        some [⟨"C1", "Case One", "Court A", "2020-01-01", 1, true⟩,
          ⟨"C2", "Case Two", "Court B", "2020-02-02", 1, true⟩] ∧
      find_related_cases gTie "L1" ["case_C2", "case_C1"] =
        some [⟨"C2", "Case Two", "Court B", "2020-02-02", 1, true⟩,
          ⟨"C1", "Case One", "Court A", "2020-01-01", 1, true⟩] ∧
      directCases gTie "law_L1" = ["case_C1", "case_C2"] ∧
      (⟨"C1", "Case One", "Court A", "2020-01-01", 1, true⟩ : RelatedCase) ≠
        ⟨"C2", "Case Two", "Court B", "2020-02-02", 1, true⟩ := by
  refine ⟨by decide, by decide, by decide, by decide, by decide, by decide⟩

/-- C6 (amended): a successful `find_related_cases` result is sorted by
relevance score in non-increasing order via a stable sort; equal-score
entries appear in the iteration order of the internal `all_cases` set,
which Python does not determine from the graph alone — so the order is
deterministic only once that set-iteration order is fixed, not by the
graph by itself. -/
theorem C6_sorted (laws : List LawDetail) (cases : List CaseDetail)
    (refs : List CaseReference) (law_id : String) (enum : List String)
    {g : DiGraph} {rs : List RelatedCase}
    (hg : g = build_citation_graph laws cases refs)
    (henum : validEnum g ("law_" ++ law_id) enum)
    (hsome : find_related_cases g law_id enum = some rs) :
    rs.Sorted (lexDesc (fun e => e.relevance_score)
      (fun e => enum.indexOf ("case_" ++ e.case_id))) := by
  have hwf : GraphWF g := by rw [hg]; exact build_graphWF laws cases refs
  by_cases hnode : g.hasNode ("law_" ++ law_id) = true
  · rcases find_related_cases_some_elim hnode hsome with ⟨results, hm, hsort⟩
    rw [hsort]
    apply pySortDesc_sorted_lexDesc
    have hF2 := mapM_option_eq_some.1 hm
    have hpw := nodup_pairwise_indexOf henum.1
    apply forall2_pairwise ?_ hF2 hpw
    intro a b a2 b2 ha hb hab
    have hida : a = "case_" ++ a2.case_id := relatedEntry_node_id hwf ha
    have hidb : b = "case_" ++ b2.case_id := relatedEntry_node_id hwf hb
    rw [← hida, ← hidb]
    exact hab
  · unfold find_related_cases at hsome
    dsimp only at hsome
    rw [if_neg hnode] at hsome
    simp only [Option.some.injEq] at hsome
    rw [← hsome]
    exact List.sorted_nil

/-- C6 witness: with set-iteration order `[case_C2, case_C1]`, the tied
result keeps that order and is sorted under the lexicographic relation
(score descending, enumeration index ascending). -/
theorem C6_sorted_witness :
    ([⟨"C2", "Case Two", "Court B", "2020-02-02", 1, true⟩,
      ⟨"C1", "Case One", "Court A", "2020-01-01", 1, true⟩] :
        List RelatedCase).Sorted
      (lexDesc (fun e => e.relevance_score)
        (fun e => ["case_C2", "case_C1"].indexOf ("case_" ++ e.case_id))) := by
  have h := C6_sorted [lawL1] [caseC1, caseC2]
    [⟨"C1", some "L1", none, none⟩, ⟨"C2", some "L1", none, none⟩] "L1"
    ["case_C2", "case_C1"] rfl (by decide)
    (show find_related_cases gTie "L1" ["case_C2", "case_C1"] =
      some [⟨"C2", "Case Two", "Court B", "2020-02-02", 1, true⟩,
        ⟨"C1", "Case One", "Court A", "2020-01-01", 1, true⟩] by decide)
  exact h

/-! ## Claim C7 -/

/-- A dangling law reference for C7: the built graph has one law node with
no stored record. -/
def gDanglingLaw : DiGraph := build_citation_graph [] [] [⟨"c7", some "l7", none, none⟩]

/-- C7 is false as stated: on a built graph containing a law node whose id
came only from a reference record (no matching law entity), reading the
node's stored record raises `KeyError` (modelled `none`), so
`get_most_cited_laws` raises instead of returning one entry per law node
with no error. -/
theorem C7_counterexample :
    lawNodes gDanglingLaw = ["law_l7"] ∧
      get_most_cited_laws gDanglingLaw 3 = none := by
  refine ⟨by decide, by decide⟩

/-- C7 (amended): provided reading every law node's stored record succeeds
(every law node resolves to a supplied law entity),
`get_most_cited_laws limit` returns a list sorted non-increasingly by
citation count with ties in original node discovery order, of length
`min limit (number of law nodes)`; each returned entry comes from a law
node and counts its distinct citing case nodes (a case citing the same
law via two reference records counts once, since the graph dedupes edges
by (source, target)); and when there are at most `limit` law nodes, every
law node's entry is returned (no error). -/
theorem C7_most_cited (laws : List LawDetail) (cases : List CaseDetail)
    (refs : List CaseReference) (limit : Nat) {g : DiGraph}
    (hg : g = build_citation_graph laws cases refs)
    (hresolve : ∀ n ∈ lawNodes g, (citedLawEntry g n).isSome) :
    ∃ rs, get_most_cited_laws g limit = some rs ∧
      rs.Sorted (lexDesc (fun e => (e.citation_count : ℚ))
        (fun e => (lawNodes g).indexOf ("law_" ++ e.law_id))) ∧
      rs.length = min limit (lawNodes g).length ∧
      (∀ e ∈ rs, ∃ n ∈ lawNodes g, citedLawEntry g n = some e ∧
        e.citation_count = (g.predecessors n).toFinset.card) ∧
      ((lawNodes g).length ≤ limit →
        ∀ n ∈ lawNodes g, ∀ e, citedLawEntry g n = some e → e ∈ rs) := by
  have hwf : GraphWF g := by rw [hg]; exact build_graphWF laws cases refs
  rcases mapM_some_of_forall (citedLawEntry g) (lawNodes g) hresolve with ⟨entries, hm⟩
  have hF2 := mapM_option_eq_some.1 hm
  have hlensort : (pySortDesc (fun e => (e.citation_count : ℚ)) entries).length =
      entries.length := (pySortDesc_perm _ entries).length_eq
  refine ⟨(pySortDesc (fun e => (e.citation_count : ℚ)) entries).take limit,
    ?_, ?_, ?_, ?_, ?_⟩
  · unfold get_most_cited_laws
    rw [hm]
  · have hlawnodup : (lawNodes g).Nodup := List.Nodup.filter _ hwf.nodesNodup
    have hpw := nodup_pairwise_indexOf hlawnodup
    have hpairs : entries.Pairwise (fun a b =>
        (lawNodes g).indexOf ("law_" ++ a.law_id) <
          (lawNodes g).indexOf ("law_" ++ b.law_id)) := by
      apply forall2_pairwise ?_ hF2 hpw
      intro a b a2 b2 ha hb hab
      rw [← citedLawEntry_node_id hwf ha, ← citedLawEntry_node_id hwf hb]
      exact hab
    have hsorted := pySortDesc_sorted_lexDesc (fun e => (e.citation_count : ℚ))
      (fun e => (lawNodes g).indexOf ("law_" ++ e.law_id)) entries hpairs
    exact List.Pairwise.sublist (List.take_sublist limit _) hsorted
  · rw [List.length_take, hlensort, hF2.length_eq]
  · intro e he
    have hemem : e ∈ entries :=
      (pySortDesc_perm _ entries).mem_iff.1 (List.mem_of_mem_take he)
    rcases forall2_mem_right hF2 e hemem with ⟨n, hn, hne⟩
    refine ⟨n, hn, hne, ?_⟩
    rcases citedLawEntry_some_elim hne with ⟨ld, _, hestruct⟩
    rw [hestruct]
    exact (List.toFinset_card_of_nodup (predecessors_nodup hwf n)).symm
  · intro hlen n hn e hne
    have htake : (pySortDesc (fun e => (e.citation_count : ℚ)) entries).take limit =
        pySortDesc (fun e => (e.citation_count : ℚ)) entries := by
      apply List.take_of_length_le
      rw [hlensort, ← hF2.length_eq]
      exact hlen
    rw [htake]
    rcases forall2_mem_left hF2 n hn with ⟨e2, he2, hne2⟩
    have heq : e = e2 := by
      rw [hne] at hne2
      exact Option.some.inj hne2
    rw [heq]
    exact (pySortDesc_perm _ entries).mem_iff.2 he2

/-- C7 witness: the spec scenario with `limit = 1` — `L1` has two distinct
citing cases, the list has length `min 1 1 = 1` and is sorted. -/
theorem C7_most_cited_witness :
    ∃ rs, get_most_cited_laws gSpec 1 = some rs ∧
      rs.Sorted (lexDesc (fun e => (e.citation_count : ℚ))
        (fun e => (lawNodes gSpec).indexOf ("law_" ++ e.law_id))) ∧
      rs.length = min 1 (lawNodes gSpec).length := by
  obtain ⟨rs, h1, h2, h3, _, _⟩ :=
    C7_most_cited [lawL1] [caseC1, caseC2, caseC3] refsSpec 1 rfl (by decide)
  exact ⟨rs, h1, h2, h3⟩

/-! ## Claim C2 -/

/-- One case citing one law, for the ego-view direction experiment. -/
def gPair : DiGraph :=
  build_citation_graph [lawL1] [caseC1] [⟨"C1", some "L1", none, none⟩]

/-- C2 is false as stated: the code calls `nx.ego_graph` with its default
`undirected=False`, so only successor edges are traversed. With `C1` citing
`L1`, the case node is undirected-reachable from the law center within one
hop (the claim would include it), yet the returned view contains only the
center node and no edges. -/
theorem C2_counterexample :
    UndirReach gPair "law_L1" "case_C1" 1 ∧
      (visualize_relationships gPair "L1" "law" 1).map
        (fun res => (res.nodes.map VisNode.id, res.edges.length)) =
        some (["law_L1"], 0) := by
  constructor
  · exact UndirReach.bwd (by decide) (UndirReach.refl "case_C1" 0)
  · decide

/-- C2 (amended): for a built graph and a center present in it, a
successful `visualize_relationships` returns exactly the nodes reachable
from the center by at most `depth` edge traversals FOLLOWING edge
direction (successors only, the `nx.ego_graph` default), plus every edge
of the graph whose both endpoints lie in that node set. -/
theorem C2_ego_directed (laws : List LawDetail) (cases : List CaseDetail)
    (refs : List CaseReference) (center_id center_type : String) (depth : Nat)
    {g : DiGraph} {res : VisResult}
    (hg : g = build_citation_graph laws cases refs)
    (hcenter : g.hasNode (center_type ++ "_" ++ center_id) = true)
    (hres : visualize_relationships g center_id center_type depth = some res) :
    (∀ n, n ∈ res.nodes.map VisNode.id ↔
      DirReach g (center_type ++ "_" ++ center_id) n depth) ∧
    (∀ u v, (u, v) ∈ res.edges.map (fun e => (e.source, e.target)) ↔
      g.hasEdge u v = true ∧
        DirReach g (center_type ++ "_" ++ center_id) u depth ∧
        DirReach g (center_type ++ "_" ++ center_id) v depth) := by
  have hwf : GraphWF g := by rw [hg]; exact build_graphWF laws cases refs
  have hcmem : (center_type ++ "_" ++ center_id) ∈ g.nodeIds :=
    DiGraph.hasNode_iff_mem.1 hcenter
  unfold visualize_relationships at hres
  dsimp only at hres
  rw [if_pos hcenter] at hres
  cases hm : (g.nodeIds.filter
      (fun n => n ∈ reachSet g (center_type ++ "_" ++ center_id) depth)).mapM
      (fun n => match g.attrsOf n with
        | some (some a) =>
          some (⟨n, a.type, a.name, n == center_type ++ "_" ++ center_id⟩ : VisNode)
        | _ => none) with
  | none => rw [hm] at hres; cases hres
  | some vnodes =>
    rw [hm] at hres
    simp only [Option.some.injEq] at hres
    have hids : vnodes.map VisNode.id = g.nodeIds.filter
        (fun n => n ∈ reachSet g (center_type ++ "_" ++ center_id) depth) :=
      visNodes_map_id (mapM_option_eq_some.1 hm)
    constructor
    · intro n
      rw [← hres]
      dsimp only
      rw [hids, List.mem_filter]
      constructor
      · rintro ⟨_, hr⟩
        exact mem_reachSet_iff.1 (by simpa using hr)
      · intro hdr
        refine ⟨dirReach_mem_nodeIds hwf hcmem hdr, ?_⟩
        simpa using mem_reachSet_iff.2 hdr
    · intro u v
      rw [← hres]
      dsimp only
      rw [List.mem_map]
      constructor
      · rintro ⟨ve, hve, hpair⟩
        rw [List.mem_flatMap] at hve
        rcases hve with ⟨u2, hu2, hve2⟩
        rw [List.mem_map] at hve2
        rcases hve2 with ⟨e, he, hveq⟩
        rw [List.mem_filter] at he
        rcases he with ⟨hee, hcond⟩
        simp only [Bool.and_eq_true, beq_iff_eq, decide_eq_true_eq] at hcond
        rw [← hveq] at hpair
        dsimp only at hpair
        rw [Prod.mk.injEq] at hpair
        obtain ⟨h1, h2⟩ := hpair
        rw [List.mem_filter] at hu2
        have hu2r : u2 ∈ reachSet g (center_type ++ "_" ++ center_id) depth := by
          simpa using hu2.2
        refine ⟨DiGraph.hasEdge_iff.2 ⟨e, hee, h1, h2⟩, ?_, ?_⟩
        · rw [← h1, hcond.1]
          exact mem_reachSet_iff.1 hu2r
        · rw [← h2]
          exact mem_reachSet_iff.1 hcond.2
      · rintro ⟨he, hdu, hdv⟩
        rcases DiGraph.hasEdge_iff.1 he with ⟨e, hee, h1, h2⟩
        refine ⟨⟨e.1, e.2.1, e.2.2.type, e.2.2.context⟩, ?_, by rw [h1, h2]⟩
        rw [List.mem_flatMap]
        refine ⟨u, ?_, ?_⟩
        · rw [List.mem_filter]
          refine ⟨dirReach_mem_nodeIds hwf hcmem hdu, ?_⟩
          simpa using mem_reachSet_iff.2 hdu
        · rw [List.mem_map]
          refine ⟨e, ?_, rfl⟩
          rw [List.mem_filter]
          refine ⟨hee, ?_⟩
          simp only [Bool.and_eq_true, beq_iff_eq, decide_eq_true_eq]
          refine ⟨h1, ?_⟩
          rw [h2]
          exact mem_reachSet_iff.2 hdv

/-- C2 witness: in the spec scenario, the view centered on `case_C3` with
radius 2 reaches `case_C1` by a directed path of length 1. -/
theorem C2_ego_directed_witness :
    DirReach gSpec "case_C3" "case_C1" 2 ∧
      "case_C1" ∈ ([⟨"law_L1", "law", "Civil Code", false⟩,
        ⟨"case_C1", "case", "Case One", false⟩,
        ⟨"case_C3", "case", "Case Three", true⟩] : List VisNode).map VisNode.id := by
  have h := C2_ego_directed [lawL1] [caseC1, caseC2, caseC3] refsSpec "C3" "case" 2
    rfl (by decide)
    (show visualize_relationships gSpec "C3" "case" 2 =
      some ⟨[⟨"law_L1", "law", "Civil Code", false⟩,
        ⟨"case_C1", "case", "Case One", false⟩,
        ⟨"case_C3", "case", "Case Three", true⟩],
        [⟨"case_C1", "law_L1", "cites_law", none⟩,
         ⟨"case_C3", "case_C1", "cites_case", none⟩], "case_C3", none⟩ by decide)
  have hmem : "case_C1" ∈ ([⟨"law_L1", "law", "Civil Code", false⟩,
      ⟨"case_C1", "case", "Case One", false⟩,
      ⟨"case_C3", "case", "Case Three", true⟩] : List VisNode).map VisNode.id := by
    decide
  exact ⟨(h.1 "case_C1").1 hmem, hmem⟩

end CitationGraph
